import Mathlib

/-!
Verification of the capture-and-correlate engine of `tools/boot_overlay_poc.py`.

The Python functions are embedded shallowly:

* strings are Lean `String`s (operated on through their `List Char` data);
* Python `int` values coming from JSON are `Int`, timestamps parsed from
  decimal digits are `Nat`;
* the regular expressions `LOG_PREFIX_RE`, `MODULE_RE` and
  `EMBEDDED_LOG_PREFIX_RE` are compiled by hand into executable matchers
  (their backtracking is deterministic: a greedy `\d+` or `[^\]]+` followed
  by a fixed literal can only succeed on the maximal run);
* the read loop of `read_boot_window_events` becomes a state machine that
  is fed a script of decoded chunks; an empty chunk plays the role of a
  read that yielded no data, and the end of the script plays the role of
  the wall-clock deadline (the only exit of the `while` loop in the code);
* fallible code returns `Option` / `Except`.
-/

/-- ASCII whitespace characters matched by the Python regex class `\s`.
The serial log lines treated here are ASCII; the additional Unicode
whitespace accepted by Python never occurs in them. -/
def isPySpace (c : Char) : Bool :=
  c = ' ' || c = '\t' || c = '\n' || c = '\r' || c = '\x0b' || c = '\x0c'

/-- Line-boundary characters recognized by Python `str.splitlines`. -/
def isLineBoundary (c : Char) : Bool :=
  c = '\n' || c = '\r' || c = '\x0b' || c = '\x0c' ||
  c = '\x1c' || c = '\x1d' || c = '\x1e' || c = '\x85' ||
  c = '\u2028' || c = '\u2029'

/-- The `LogEvent` dataclass. -/
structure LogEvent where
  t_ms : Nat
  module : String
  message : String
  raw : String
deriving DecidableEq

/-- Numeric value of a run of decimal digits, as computed by Python `int`. -/
def digitsToNat (ds : List Char) : Nat :=
  ds.foldl (fun n c => 10 * n + (c.toNat - '0'.toNat)) 0

/-- Text captured by a trailing `\s*(.*)$` in a Python regex (no MULTILINE,
no DOTALL): skip the maximal whitespace run; the remainder must be free of
`'\n'` except possibly as its very last character (where `$` may match just
before a final newline, which is then excluded from the group). Returns
`none` when the regex cannot reach `$`. -/
def restGroup (t : List Char) : Option (List Char) :=
  let r := t.dropWhile isPySpace
  if r.any (fun c => c = '\n') then
    match r.getLast? with
    | some c =>
      if c = '\n' then
        if r.dropLast.any (fun c2 => c2 = '\n') then none else some r.dropLast
      else none
    | none => none
  else some r

/-- Matching of `MODULE_RE = ^\s*\[([^\]]+)\]\s*(.*)$`: on success gives the
bracketed module tag and the remaining message. -/
def moduleMatch (r : List Char) : Option (List Char × List Char) :=
  match r.dropWhile isPySpace with
  | [] => none
  | c :: rest =>
    if c = '[' then
      let m := rest.takeWhile (fun c2 => c2 != ']')
      if m.isEmpty then none
      else
        match rest.drop m.length with
        | d :: tail =>
          if d = ']' then
            match restGroup tail with
            | some g2 => some (m, g2)
            | none => none
          else none
        | [] => none
    else none

/-- Matching of `LOG_PREFIX_RE = ^\[(\d+)ms\]\s*(.*)$` against an already
carriage-return-stripped line: on success gives the timestamp value and
group 2 (the rest of the line after the prefix and following whitespace). -/
def logLineMatch (l : List Char) : Option (Nat × List Char) :=
  match l with
  | [] => none
  | c :: rest =>
    if c = '[' then
      let ds := rest.takeWhile Char.isDigit
      if ds.isEmpty then none
      else
        match rest.drop ds.length with
        | a :: b :: d :: tail =>
          if a = 'm' ∧ b = 's' ∧ d = ']' then
            match restGroup tail with
            | some g2 => some (digitsToNat ds, g2)
            | none => none
          else none
        | _ => none
    else none

/-- The initial carriage-return stripping of `parse_log_line`: Python's
`line.lstrip("\r")`, guarded by `line.startswith("\r")`, removes every
leading carriage return. -/
def stripLeadingCRs (l : List Char) : List Char :=
  if l.head? = some '\r' then l.dropWhile (fun c => c = '\r') else l

/-- Shallow embedding of `parse_log_line`. -/
def parse_log_line (line : String) : Option LogEvent :=
  let l := stripLeadingCRs line.data
  match logLineMatch l with
  | none => none
  | some (t, g2) =>
    match moduleMatch g2 with
    | some (m, msg) => some ⟨t, String.mk m, String.mk msg, String.mk l⟩
    | none => some ⟨t, "", String.mk g2, String.mk l⟩

/-- Accumulator worker for `pySplitlines`; the accumulator holds the
current (reversed) line. A final empty fragment is dropped, matching
Python, which does not report an empty last line after a trailing
line boundary. -/
def splitlinesAux : List Char → List Char → List (List Char)
| [], acc => if acc.isEmpty then [] else [acc.reverse]
| c :: rest, acc =>
  if isLineBoundary c then
    acc.reverse ::
      (match rest with
       | d :: rest2 =>
         if c = '\r' ∧ d = '\n' then splitlinesAux rest2 []
         else splitlinesAux (d :: rest2) []
       | [] => [])
  else splitlinesAux rest (c :: acc)

/-- Python `str.splitlines` (keepends false). -/
def pySplitlines (s : List Char) : List (List Char) :=
  splitlinesAux s []

/-- Length of the match of `EMBEDDED_LOG_PREFIX_RE = \[(\d+)ms\]` anchored at
the head of `cs`, if any. -/
def tsMatchLen (cs : List Char) : Option Nat :=
  match cs with
  | [] => none
  | c :: rest =>
    if c = '[' then
      let ds := rest.takeWhile Char.isDigit
      if ds.isEmpty then none
      else
        match rest.drop ds.length with
        | a :: b :: d :: _ =>
          if a = 'm' ∧ b = 's' ∧ d = ']' then some (ds.length + 4) else none
        | _ => none
    else none

/-- Fueled worker for `findTs`: `re.finditer` semantics, scanning left to
right for non-overlapping matches and resuming after each match. Each step
consumes at least one character, so fuel `cs.length` is always enough. -/
def findTsAux : Nat → List Char → Nat → List (Nat × Nat)
| 0, _, _ => []
| _ + 1, [], _ => []
| fuel + 1, c :: rest, pos =>
  match tsMatchLen (c :: rest) with
  | some len => (pos, pos + len) :: findTsAux fuel ((c :: rest).drop len) (pos + len)
  | none => findTsAux fuel rest (pos + 1)

/-- All matches of `EMBEDDED_LOG_PREFIX_RE` in a line, as (start, end)
offset pairs, in order. -/
def findTs (cs : List Char) : List (Nat × Nat) :=
  findTsAux cs.length cs 0

/-- The chunk-producing loop of `split_embedded_timestamp_lines`: for each
match, the slice from its start to the next match's start (or the end of
the line); empty slices are filtered out by the `if chunk` in the source. -/
def sliceChunks (line : List Char) : List (Nat × Nat) → List (List Char)
| [] => []
| [(s, _)] => if (line.drop s).isEmpty then [] else [line.drop s]
| (s, _) :: (s2, e2) :: ms =>
  (if ((line.drop s).take (s2 - s)).isEmpty then []
   else [(line.drop s).take (s2 - s)]) ++ sliceChunks line ((s2, e2) :: ms)

/-- Per-physical-line body of `split_embedded_timestamp_lines`: split only
when more than one embedded timestamp prefix is found and the first one
starts at offset 0. -/
def splitOneLine (line : List Char) : List (List Char) :=
  let ms := findTs line
  if ms.length ≤ 1 then [line]
  else
    match ms with
    | [] => [line]
    | (s, _) :: _ => if s ≠ 0 then [line] else sliceChunks line ms

/-- Shallow embedding of `split_embedded_timestamp_lines`. -/
def split_embedded_timestamp_lines (text : String) : List String :=
  ((pySplitlines text.data).flatMap splitOneLine).map (fun l => String.mk l)

/-- The `HealthSample` dataclass. -/
structure HealthSample where
  uptime_ms : Int
  cpu_usage : Option Int
  heap_internal_free : Int
  heap_internal_largest : Int
  psram_free : Int
deriving DecidableEq

/-- A leaf JSON value as seen by `parse_health_history`: a value `int()`
accepts, JSON null (`None`, which `int()` rejects but the cpu column maps
to unknown), or any other value `int()` rejects. -/
inductive JLeaf where
  | jint (i : Int)
  | jnull
  | jbad
deriving DecidableEq

/-- A field value of the health-history document: either a JSON array of
leaves or some non-list value. -/
inductive JField where
  | jarr (xs : List JLeaf)
  | jnonlist
deriving DecidableEq

/-- The health-history document: the five fields `parse_health_history`
reads, each possibly absent. -/
structure HistDoc where
  uptime_ms : Option JField
  cpu_usage : Option JField
  heap_internal_free : Option JField
  heap_internal_largest : Option JField
  psram_free : Option JField
deriving DecidableEq

/-- `hist.get(name)` followed by the `isinstance(v, list)` test. -/
def getArr : Option JField → Option (List JLeaf)
| some (JField.jarr xs) => some xs
| _ => none

/-- Python `int(x)` on a leaf: succeeds exactly on numeric values. -/
def leafInt : JLeaf → Except String Int
| JLeaf.jint i => Except.ok i
| _ => Except.error "invalid literal for int"

/-- The cpu column conversion: `None` stays unknown, any other
non-convertible value is silently degraded to unknown. -/
def leafCpu : JLeaf → Option Int
| JLeaf.jint i => some i
| _ => none

/-- The `arr(name)` helper of `parse_health_history`: the field must be a
list of length `n`, otherwise the document is rejected. -/
def checkedArr (v : Option JField) (name : String) (n : Nat) : Except String (List JLeaf) :=
  match getArr v with
  | some xs =>
    if xs.length = n then Except.ok xs
    else Except.error ("health history missing " ++ name ++ "[] or length mismatch")
  | none => Except.error ("health history missing " ++ name ++ "[] or length mismatch")

/-- The per-index loop of `parse_health_history`, walking the five arrays
in lockstep and converting each entry. -/
def buildSamples : List JLeaf → List JLeaf → List JLeaf → List JLeaf → List JLeaf →
    Except String (List HealthSample)
| [], _, _, _, _ => Except.ok []
| u :: us, c :: cs, hf :: hfs, hl :: hls, ps :: pss =>
  match leafInt u with
  | Except.error e => Except.error e
  | Except.ok t =>
    match leafInt hf with
    | Except.error e => Except.error e
    | Except.ok hfv =>
      match leafInt hl with
      | Except.error e => Except.error e
      | Except.ok hlv =>
        match leafInt ps with
        | Except.error e => Except.error e
        | Except.ok psv =>
          match buildSamples us cs hfs hls pss with
          | Except.error e => Except.error e
          | Except.ok rest => Except.ok (⟨t, leafCpu c, hfv, hlv, psv⟩ :: rest)
| _, _, _, _, _ => Except.error "length mismatch"

/-- Ordering of samples by uptime, the key of the final `samples.sort`. -/
def sampleLE (a b : HealthSample) : Prop := a.uptime_ms ≤ b.uptime_ms

instance : DecidableRel sampleLE :=
  fun a b => inferInstanceAs (Decidable (a.uptime_ms ≤ b.uptime_ms))

instance : IsTotal HealthSample sampleLE :=
  ⟨fun a b => Int.le_total a.uptime_ms b.uptime_ms⟩

instance : IsTrans HealthSample sampleLE :=
  ⟨fun _ _ _ hab hbc => le_trans hab hbc⟩

/-- Shallow embedding of `parse_health_history`. Python's `list.sort` is a
stable ascending sort, embedded as insertion sort. -/
def parse_health_history (hist : HistDoc) : Except String (List HealthSample) :=
  match getArr hist.uptime_ms with
  | none => Except.error "health history missing uptime_ms[]"
  | some u =>
    let n := u.length
    let cpu : List JLeaf :=
      match getArr hist.cpu_usage with
      | some c => if c.length = n then c else List.replicate n JLeaf.jnull
      | none => List.replicate n JLeaf.jnull
    match checkedArr hist.heap_internal_free "heap_internal_free" n with
    | Except.error e => Except.error e
    | Except.ok hf =>
      match checkedArr hist.heap_internal_largest "heap_internal_largest" n with
      | Except.error e => Except.error e
      | Except.ok hl =>
        match checkedArr hist.psram_free "psram_free" n with
        | Except.error e => Except.error e
        | Except.ok ps =>
          match buildSamples u cpu hf hl ps with
          | Except.error e => Except.error e
          | Except.ok samples => Except.ok (List.insertionSort sampleLE samples)

/-- Ordering of events by timestamp, the key of `sorted(events, ...)`. -/
def eventLE (a b : LogEvent) : Prop := a.t_ms ≤ b.t_ms

instance : DecidableRel eventLE :=
  fun a b => inferInstanceAs (Decidable (a.t_ms ≤ b.t_ms))

instance : IsTotal LogEvent eventLE :=
  ⟨fun a b => Nat.le_total a.t_ms b.t_ms⟩

instance : IsTrans LogEvent eventLE :=
  ⟨fun _ _ _ hab hbc => Nat.le_trans hab hbc⟩

/-- Python `sorted(events, key=lambda e: e.t_ms)`, a stable ascending sort,
embedded as insertion sort. -/
def sortEventsByTime (events : List LogEvent) : List LogEvent :=
  List.insertionSort eventLE events

/-- The inner `while` of `join_events_to_samples`: advance the cursor while
the next sample's timestamp is still at or before the event's.  The cursor
`samples[samples_idx]` and the remaining tail are carried as a zipper. -/
def advanceCursor (t : Nat) : HealthSample → List HealthSample → HealthSample × List HealthSample
| cur, [] => (cur, [])
| cur, s :: rest => if s.uptime_ms ≤ (t : Int) then advanceCursor t s rest else (cur, s :: rest)

/-- The per-event loop of `join_events_to_samples`. -/
def joinGo : HealthSample → List HealthSample → List LogEvent → List (LogEvent × Option HealthSample)
| _, _, [] => []
| cur, rest, e :: es =>
  let p := advanceCursor e.t_ms cur rest
  (e, if p.1.uptime_ms ≤ (e.t_ms : Int) then some p.1 else none) :: joinGo p.1 p.2 es

/-- Shallow embedding of `join_events_to_samples`. When `samples` is empty
the source returns the comprehension `[(e, None) for e in events]` in the
original event order; otherwise it walks the sorted events. -/
def join_events_to_samples (events : List LogEvent) (samples : List HealthSample) :
    List (LogEvent × Option HealthSample) :=
  match samples with
  | [] => events.map (fun e => (e, none))
  | s0 :: srest => joinGo s0 srest (sortEventsByTime events)

/-- Run parameters of `read_boot_window_events` that the loop consults. -/
structure CaptureConfig where
  window_ms : Int
  triggered_reboot : Bool

/-- The mutable state of the capture loop.  `flushed` is the content already
written to the raw-log file by `flush_raw`; `raw_lines` is the pending
buffer. -/
structure CaptureState where
  boot_started : Bool
  boot_start_t_ms : Option Nat
  last_t_ms : Option Nat
  events : List LogEvent
  raw_lines : List String
  flushed : List String
deriving DecidableEq

/-- State at the top of the capture loop. -/
def initState : CaptureState :=
  ⟨false, none, none, [], [], []⟩

/-- `flush_raw()`: move the pending buffer into the raw-log file. -/
def flushRaw (st : CaptureState) : CaptureState :=
  { st with flushed := st.flushed ++ st.raw_lines, raw_lines := [] }

/-- The guard `boot_start_t_ms is not None and t_ms - boot_start_t_ms >=
window_ms` (Python ints; the subtraction may be negative). -/
def windowReached (cfg : CaptureConfig) (bs : Option Nat) (t : Nat) : Bool :=
  match bs with
  | none => false
  | some b => decide (cfg.window_ms ≤ (t : Int) - (b : Int))

/-- The body of `for line in split_embedded_timestamp_lines(text)` in
`read_boot_window_events`. Returns the new state and whether the `break`
statement fired (which exits only this inner `for` loop). -/
def processLine (cfg : CaptureConfig) (st : CaptureState) (line : String) :
    CaptureState × Bool :=
  let st1 : CaptureState := { st with raw_lines := st.raw_lines ++ [line ++ "\n"] }
  match parse_log_line line with
  | none => (if 200 ≤ st1.raw_lines.length then flushRaw st1 else st1, false)
  | some ev =>
    if st1.boot_started = false then
      if cfg.triggered_reboot = true ∧ 3000 < ev.t_ms then
        ({ st1 with last_t_ms := some ev.t_ms }, false)
      else
        let st2 : CaptureState :=
          { st1 with boot_started := true, boot_start_t_ms := some ev.t_ms,
                     last_t_ms := some ev.t_ms, events := st1.events ++ [ev] }
        if windowReached cfg st2.boot_start_t_ms ev.t_ms then (flushRaw st2, true)
        else (st2, false)
    else
      let st2 : CaptureState :=
        match st1.last_t_ms with
        | some l =>
          if ev.t_ms + 5000 < l then
            { st1 with boot_start_t_ms := some ev.t_ms, events := [] }
          else st1
        | none => st1
      let st3 : CaptureState :=
        { st2 with last_t_ms := some ev.t_ms, events := st2.events ++ [ev] }
      if windowReached cfg st3.boot_start_t_ms ev.t_ms then (flushRaw st3, true)
      else (st3, false)

/-- The inner `for` loop: stop processing the remaining logical lines of the
current chunk when `break` fires (the `while` loop is unaffected). -/
def processLines (cfg : CaptureConfig) : CaptureState → List String → CaptureState
| st, [] => st
| st, l :: ls =>
  let p := processLine cfg st l
  if p.2 then p.1 else processLines cfg p.1 ls

/-- One iteration of the `while` loop on a successfully read chunk (or on an
empty read, which only flushes). -/
def processChunk (cfg : CaptureConfig) (st : CaptureState) (chunk : String) : CaptureState :=
  if chunk = "" then flushRaw st
  else
    let st2 := processLines cfg st (split_embedded_timestamp_lines chunk)
    if 200 ≤ st2.raw_lines.length then flushRaw st2 else st2

/-- The capture loop of `read_boot_window_events` on a script of reads.  The
loop's only exit is the wall-clock deadline check at its top, modelled as the
end of the script (transport errors are outside this model). -/
def runCapture (cfg : CaptureConfig) (script : List String) : CaptureState :=
  script.foldl (processChunk cfg) initState

/-- The event list `read_boot_window_events` returns for a script of reads. -/
def read_boot_window_events (cfg : CaptureConfig) (script : List String) : List LogEvent :=
  (runCapture cfg script).events

/-- Characters that force `csv.writer` (QUOTE_MINIMAL dialect) to quote a
field: the delimiter, the quote character, and line-terminator characters. -/
def csvSpecial (c : Char) : Bool :=
  c = ',' || c = '"' || c = '\r' || c = '\n'

/-- Double every quote character, as done inside a quoted csv field. -/
def csvEscape : List Char → List Char
| [] => []
| c :: cs => if c = '"' then '"' :: '"' :: csvEscape cs else c :: csvEscape cs

/-- One csv field as written by `csv.writer`: quoted when it contains a
special character, verbatim otherwise. -/
def csvEncodeField (f : List Char) : List Char :=
  if f.any csvSpecial then '"' :: (csvEscape f ++ ['"']) else f

/-- The comma-separated body of one csv record. -/
def csvRowBody : List (List Char) → List Char
| [] => []
| [f] => csvEncodeField f
| f :: fs => csvEncodeField f ++ ',' :: csvRowBody fs

/-- One serialized csv record. `csv.writer` quotes a record consisting of a
single empty field so that it is not mistaken for a blank line. -/
def csvRowLine (r : List (List Char)) : List Char :=
  match r with
  | [[]] => ['"', '"']
  | _ => csvRowBody r

/-- All records, each terminated by the default `\r\n` line terminator. -/
def csvRenderRows : List (List (List Char)) → List Char
| [] => []
| r :: rs => csvRowLine r ++ '\r' :: '\n' :: csvRenderRows rs

/-- The serialized csv text produced by `csv.writer` for a table. -/
def csvRender (rows : List (List String)) : String :=
  String.mk (csvRenderRows (rows.map (fun r => r.map String.data)))

/-- Modelled from the spec: the re-reading side of the round-trip property
(a standard csv reader, as in Python's `csv.reader`, which is not part of
this repository).  An unquoted field extends to the next delimiter or line
terminator. -/
def csvParseUnquoted : List Char → List Char × List Char
| [] => ([], [])
| c :: rest =>
  if c = ',' || c = '\r' || c = '\n' then ([], c :: rest)
  else
    let p := csvParseUnquoted rest
    (c :: p.1, p.2)

/-- Modelled from the spec: a quoted csv field after its opening quote; a
doubled quote stands for one quote character. -/
def csvParseQuoted : List Char → List Char × List Char
| [] => ([], [])
| c :: rest =>
  if c = '"' then
    match rest with
    | d :: rest2 =>
      if d = '"' then
        let p := csvParseQuoted rest2
        ('"' :: p.1, p.2)
      else ([], rest)
    | [] => ([], [])
  else
    let p := csvParseQuoted rest
    (c :: p.1, p.2)

/-- Modelled from the spec: dispatch on the first character of a field, a
quote opening a quoted field and anything else starting an unquoted one. -/
def csvFieldStart (cs : List Char) : List Char × List Char :=
  match cs with
  | c :: cs2 => if c = '"' then csvParseQuoted cs2 else csvParseUnquoted (c :: cs2)
  | [] => csvParseUnquoted []

/-- Modelled from the spec: one csv record (fuelled by the number of fields;
each recursive step consumes the delimiter, so input length bounds it). -/
def csvParseRecord : Nat → List Char → List (List Char) × List Char
| 0, cs => ([], cs)
| fuel + 1, cs =>
  let p := csvFieldStart cs
  match p.2 with
  | [] => ([p.1], [])
  | c :: r =>
    if c = ',' then
      let q := csvParseRecord fuel r
      (p.1 :: q.1, q.2)
    else if c = '\r' then
      match r with
      | d :: r2 => if d = '\n' then ([p.1], r2) else ([p.1], d :: r2)
      | [] => ([p.1], [])
    else ([p.1], r)

/-- Modelled from the spec: the sequence of csv records; a blank line is an
empty record, as in Python's `csv.reader`. -/
def csvParseRows : Nat → List Char → List (List (List Char))
| 0, _ => []
| _ + 1, [] => []
| fuel + 1, c :: rest =>
  if c = '\r' ∧ rest.head? = some '\n' then [] :: csvParseRows fuel rest.tail
  else if c = '\n' then [] :: csvParseRows fuel rest
  else
    let p := csvParseRecord ((c :: rest).length + 1) (c :: rest)
    p.1 :: csvParseRows fuel p.2

/-- Modelled from the spec: parse a whole csv text back into a table. -/
def csvParse (s : String) : List (List String) :=
  (csvParseRows (s.data.length + 1) s.data).map (fun r => r.map (fun f => String.mk f))

/-- The header row written by `write_overlay_csv`. -/
def overlayHeader : List String :=
  ["log_t_ms", "sample_uptime_ms", "heap_internal_free", "heap_internal_largest",
   "psram_free", "cpu_usage", "module", "message"]

/-- The data row `write_overlay_csv` emits for one joined row; a missing
sample leaves the sample columns blank, and an unknown cpu value leaves the
cpu column blank. Numbers are stringified as by Python `str`. -/
def overlayRow (p : LogEvent × Option HealthSample) : List String :=
  match p.2 with
  | none => [toString p.1.t_ms, "", "", "", "", "", p.1.module, p.1.message]
  | some s =>
    [toString p.1.t_ms, toString s.uptime_ms, toString s.heap_internal_free,
     toString s.heap_internal_largest, toString s.psram_free,
     (match s.cpu_usage with | none => "" | some c => toString c),
     p.1.module, p.1.message]

/-- Shallow embedding of `write_overlay_csv` at the table level: the header
row followed by one data row per joined row, in order. -/
def write_overlay_csv (joined : List (LogEvent × Option HealthSample)) : List (List String) :=
  overlayHeader :: joined.map overlayRow

/-- Loop invariant of the capture state machine: consecutive events never
jump backward by more than the 5000 ms reset slack; before boot start the
event list is empty; after boot start `last_t_ms` is the timestamp of the
last accumulated event. -/
def CaptureInv (st : CaptureState) : Prop :=
  List.Chain' (fun a b => ¬ (b.t_ms + 5000 < a.t_ms)) st.events ∧
  (st.boot_started = false → st.events = []) ∧
  (st.boot_started = true → ∃ e, st.events.getLast? = some e ∧ st.last_t_ms = some e.t_ms)

/-- A concrete health-history document used to exercise the parser: two
samples with out-of-order uptimes and no cpu field. -/
def histDocExample : HistDoc :=
  ⟨some (JField.jarr [JLeaf.jint 5, JLeaf.jint 2]), none,
   some (JField.jarr [JLeaf.jint 10, JLeaf.jint 20]),
   some (JField.jarr [JLeaf.jint 11, JLeaf.jint 21]),
   some (JField.jarr [JLeaf.jint 12, JLeaf.jint 22])⟩

/-- C5: in the capture loop before boot start, a decoded event is ignored
(only `last_t_ms` updated) exactly when a reboot was triggered and its
timestamp exceeds the 3000 ms threshold; otherwise it starts the boot
window, becomes `boot_start_t_ms`, and is appended to `events`. -/
theorem C5_boot_start_heuristic (cfg : CaptureConfig) (st : CaptureState) (line : String)
    (ev : LogEvent) (hb : st.boot_started = false) (hp : parse_log_line line = some ev) :
    (cfg.triggered_reboot = true ∧ 3000 < ev.t_ms →
      (processLine cfg st line).1.boot_started = false ∧
      (processLine cfg st line).1.events = st.events ∧
      (processLine cfg st line).1.boot_start_t_ms = st.boot_start_t_ms ∧
      (processLine cfg st line).1.last_t_ms = some ev.t_ms ∧
      (processLine cfg st line).2 = false) ∧
    (¬ (cfg.triggered_reboot = true ∧ 3000 < ev.t_ms) →
      (processLine cfg st line).1.boot_started = true ∧
      (processLine cfg st line).1.boot_start_t_ms = some ev.t_ms ∧
      (processLine cfg st line).1.last_t_ms = some ev.t_ms ∧
      (processLine cfg st line).1.events = st.events ++ [ev]) := by
  constructor
  · intro h
    simp [processLine, hp, hb, h]
  · intro h
    simp only [processLine, hp, hb]
    simp only [Bool.false_eq_true, if_false, if_true, if_neg h]
    split <;> simp [flushRaw]

/-- C6: once boot has started, a decoded event whose timestamp is more than
5000 ms below the last seen timestamp restarts the capture: the event list
is cleared and restarted with exactly this event, `boot_start_t_ms` is
reassigned to its timestamp, and the buffered raw lines are preserved
(possibly flushed to the log file, never discarded). -/
theorem C6_reset_detection (cfg : CaptureConfig) (st : CaptureState) (line : String)
    (ev : LogEvent) (l : Nat) (hb : st.boot_started = true) (hl : st.last_t_ms = some l)
    (hp : parse_log_line line = some ev) (hr : ev.t_ms + 5000 < l) :
    (processLine cfg st line).1.events = [ev] ∧
    (processLine cfg st line).1.boot_start_t_ms = some ev.t_ms ∧
    (processLine cfg st line).1.last_t_ms = some ev.t_ms ∧
    (processLine cfg st line).1.flushed ++ (processLine cfg st line).1.raw_lines =
      st.flushed ++ st.raw_lines ++ [line ++ "\n"] := by
  simp only [processLine, hp, hb, hl]
  rw [if_neg (by simp), if_pos hr]
  split <;> simp [flushRaw, List.append_assoc]

/-- C1: the source's own documentation says capture stops once
`t_ms - boot_start_t_ms >= window_ms`, but the `break` exits only the inner
`for` loop over split lines; the `while` loop keeps reading until the
wall-clock deadline.  With `window_ms = 100`, the event at `t = 200` already
satisfies the stop condition, yet the next read is still processed and the
event at `t = 300` is appended. -/
theorem C1_window_break_only_exits_for_loop :
    windowReached ⟨100, false⟩ (some 0) 200 = true ∧
    read_boot_window_events ⟨100, false⟩ ["[0ms] a", "[200ms] b", "[300ms] c"] =
      [⟨0, "", "a", "[0ms] a"⟩, ⟨200, "", "b", "[200ms] b"⟩, ⟨300, "", "c", "[300ms] c"⟩] := by
  constructor
  · decide
  · decide

/-- C2 counterexample: with an empty sample list, `join_events_to_samples`
returns the rows in the original event order — here `[5, 3]` — not sorted
ascending by timestamp as the claim states. -/
theorem C2_empty_samples_counterexample :
    (join_events_to_samples [⟨5, "", "", ""⟩, ⟨3, "", "", ""⟩] []).map (fun p => p.1.t_ms) =
      [5, 3] ∧
    ¬ List.Pairwise (fun a b => a ≤ b)
      ((join_events_to_samples [⟨5, "", "", ""⟩, ⟨3, "", "", ""⟩] []).map (fun p => p.1.t_ms)) := by
  constructor
  · decide
  · decide

/-- C3 counterexample: `parse_log_line` strips all leading carriage returns
(`lstrip`), not a single one.  On a line with two leading carriage returns
the singly-stripped line still begins with a carriage return and does not
match the timestamp prefix, yet the function returns an event. -/
theorem C3_multiple_cr_counterexample :
    parse_log_line "\r\r[5ms] x" = some ⟨5, "", "x", "[5ms] x"⟩ ∧
    logLineMatch ("\r\r[5ms] x".data.drop 1) = none := by
  constructor
  · decide
  · decide

/-- C7 counterexample: a backward timestamp jump within the 5000 ms slack
(1000 → 400) is appended without any reset-detection clear (the boot start
still sits at 1000), leaving a reachable state whose event list is not
sorted by non-decreasing timestamp. -/
theorem C7_unsorted_events_counterexample :
    (runCapture ⟨1000000, false⟩ ["[1000ms] a", "[400ms] b"]).events.map LogEvent.t_ms =
      [1000, 400] ∧
    (runCapture ⟨1000000, false⟩ ["[1000ms] a", "[400ms] b"]).boot_start_t_ms = some 1000 ∧
    ¬ List.Pairwise (fun a b => a ≤ b)
      ((runCapture ⟨1000000, false⟩ ["[1000ms] a", "[400ms] b"]).events.map LogEvent.t_ms) := by
  refine ⟨by decide, by decide, by decide⟩

/-- C10 counterexample: Python `str.splitlines` also splits on characters
such as the vertical tab, so an input free of `'\n'` and `'\r'` can still be
split, losing the boundary character: `"a\x0bb"` yields `["a", "b"]`, whose
concatenation is not the input, and which is not the singleton unsplit
line either. -/
theorem C10_vertical_tab_counterexample :
    ('\n' ∉ "a\x0bb".data ∧ '\r' ∉ "a\x0bb".data) ∧
    split_embedded_timestamp_lines "a\x0bb" = ["a", "b"] ∧
    String.join (split_embedded_timestamp_lines "a\x0bb") ≠ "a\x0bb" ∧
    split_embedded_timestamp_lines "a\x0bb" ≠ ["a\x0bb"] := by
  refine ⟨by decide, by decide, by decide, by decide⟩

/-- Witness for C5 at concrete inputs: with a triggered reboot, the stale
event at 9000 ms is ignored, and the event at 120 ms starts the boot
window. -/
theorem C5_witness :
    ((processLine ⟨15000, true⟩ initState "[9000ms] hb").1.boot_started = false ∧
     (processLine ⟨15000, true⟩ initState "[9000ms] hb").1.events = initState.events ∧
     (processLine ⟨15000, true⟩ initState "[9000ms] hb").1.boot_start_t_ms =
       initState.boot_start_t_ms ∧
     (processLine ⟨15000, true⟩ initState "[9000ms] hb").1.last_t_ms = some 9000 ∧
     (processLine ⟨15000, true⟩ initState "[9000ms] hb").2 = false) ∧
    ((processLine ⟨15000, true⟩ initState "[120ms] boot").1.boot_started = true ∧
     (processLine ⟨15000, true⟩ initState "[120ms] boot").1.boot_start_t_ms = some 120 ∧
     (processLine ⟨15000, true⟩ initState "[120ms] boot").1.last_t_ms = some 120 ∧
     (processLine ⟨15000, true⟩ initState "[120ms] boot").1.events =
       initState.events ++ [⟨120, "", "boot", "[120ms] boot"⟩]) :=
  ⟨(C5_boot_start_heuristic ⟨15000, true⟩ initState "[9000ms] hb"
      ⟨9000, "", "hb", "[9000ms] hb"⟩ rfl (by decide)).1 (by decide),
   (C5_boot_start_heuristic ⟨15000, true⟩ initState "[120ms] boot"
      ⟨120, "", "boot", "[120ms] boot"⟩ rfl (by decide)).2 (by decide)⟩

/-- Witness for C6 at a concrete input: from a started state with
`last_t_ms = 50000`, the event at 200 ms clears the accumulated events,
restarts them with itself, and keeps the buffered raw lines. -/
theorem C6_witness :
    (processLine ⟨1000000, false⟩
        ⟨true, some 0, some 50000, [⟨50000, "", "a", "[50000ms] a"⟩], ["x\n"], []⟩
        "[200ms] r").1.events = [⟨200, "", "r", "[200ms] r"⟩] ∧
    (processLine ⟨1000000, false⟩
        ⟨true, some 0, some 50000, [⟨50000, "", "a", "[50000ms] a"⟩], ["x\n"], []⟩
        "[200ms] r").1.boot_start_t_ms = some 200 ∧
    (processLine ⟨1000000, false⟩
        ⟨true, some 0, some 50000, [⟨50000, "", "a", "[50000ms] a"⟩], ["x\n"], []⟩
        "[200ms] r").1.flushed ++
      (processLine ⟨1000000, false⟩
        ⟨true, some 0, some 50000, [⟨50000, "", "a", "[50000ms] a"⟩], ["x\n"], []⟩
        "[200ms] r").1.raw_lines = ["x\n", "[200ms] r\n"] := by
  have h := C6_reset_detection ⟨1000000, false⟩
    ⟨true, some 0, some 50000, [⟨50000, "", "a", "[50000ms] a"⟩], ["x\n"], []⟩
    "[200ms] r" ⟨200, "", "r", "[200ms] r"⟩ 50000 rfl rfl (by decide) (by decide)
  exact ⟨h.1, h.2.1, by rw [h.2.2.2]; rfl⟩

/-- The capture invariant holds initially. -/
theorem captureInv_init : CaptureInv initState := by
  refine ⟨List.chain'_nil, fun _ => rfl, fun h => ?_⟩
  simp [initState] at h

/-- Flushing the raw buffer does not touch the fields the invariant is
about. -/
theorem captureInv_flush (st : CaptureState) (h : CaptureInv st) : CaptureInv (flushRaw st) := by
  simpa [CaptureInv, flushRaw] using h

/-- The per-line step preserves the capture invariant. -/
theorem captureInv_processLine (cfg : CaptureConfig) (st : CaptureState) (line : String)
    (h : CaptureInv st) : CaptureInv (processLine cfg st line).1 := by
  obtain ⟨hchain, hempty, hlast⟩ := h
  unfold processLine
  cases hp : parse_log_line line with
  | none =>
    simp only
    split
    · exact captureInv_flush _ ⟨hchain, hempty, fun hb => hlast hb⟩
    · exact ⟨hchain, hempty, fun hb => hlast hb⟩
  | some ev =>
    simp only
    by_cases hb : st.boot_started = false
    · rw [if_pos (by simpa using hb)]
      by_cases hstale : cfg.triggered_reboot = true ∧ 3000 < ev.t_ms
      · rw [if_pos hstale]
        exact ⟨hchain, fun _ => hempty hb, fun habs => by simp [hb] at habs⟩
      · rw [if_neg hstale]
        have hev : st.events = [] := hempty hb
        have hinv : CaptureInv
            { st with raw_lines := st.raw_lines ++ [line ++ "\n"],
                      boot_started := true, boot_start_t_ms := some ev.t_ms,
                      last_t_ms := some ev.t_ms, events := st.events ++ [ev] } := by
          refine ⟨?_, fun habs => by simp at habs, fun _ => ⟨ev, ?_, rfl⟩⟩
          · simp [hev]
          · simp [hev]
        split
        · exact captureInv_flush _ hinv
        · exact hinv
    · rw [if_neg hb]
      have hb' : st.boot_started = true := by
        cases hbs : st.boot_started
        · exact absurd hbs hb
        · rfl
      obtain ⟨e, hgl, hlt⟩ := hlast hb'
      simp only [hlt]
      by_cases hreset : ev.t_ms + 5000 < e.t_ms
      · rw [if_pos hreset]
        have hinv : CaptureInv
            { st with raw_lines := st.raw_lines ++ [line ++ "\n"],
                      boot_start_t_ms := some ev.t_ms,
                      last_t_ms := some ev.t_ms,
                      events := ([] : List LogEvent) ++ [ev] } := by
          refine ⟨by simp, fun habs => ?_, fun _ => ⟨ev, by simp, rfl⟩⟩
          rw [habs] at hb'
          exact absurd hb' (by simp)
        split
        · exact captureInv_flush _ hinv
        · exact hinv
      · rw [if_neg hreset]
        have hinv : CaptureInv
            { st with raw_lines := st.raw_lines ++ [line ++ "\n"],
                      last_t_ms := some ev.t_ms, events := st.events ++ [ev] } := by
          refine ⟨?_, fun habs => ?_, fun _ => ⟨ev, ?_, rfl⟩⟩
          · refine List.Chain'.append hchain (List.chain'_singleton ev) ?_
            intro x hx y hy
            simp only [List.head?_cons, Option.mem_def, Option.some.injEq] at hy
            rw [hgl] at hx
            simp only [Option.mem_def, Option.some.injEq] at hx
            subst hx; subst hy
            exact hreset
          · rw [habs] at hb'
            exact absurd hb' (by simp)
          · exact List.getLast?_concat _
        split
        · exact captureInv_flush _ hinv
        · exact hinv

/-- The inner line loop preserves the capture invariant. -/
theorem captureInv_processLines (cfg : CaptureConfig) :
    ∀ (ls : List String) (st : CaptureState), CaptureInv st →
      CaptureInv (processLines cfg st ls)
| [], st, h => h
| l :: ls, st, h => by
  unfold processLines
  dsimp only
  split
  · exact captureInv_processLine cfg st l h
  · exact captureInv_processLines cfg ls _ (captureInv_processLine cfg st l h)

/-- One chunk iteration preserves the capture invariant. -/
theorem captureInv_processChunk (cfg : CaptureConfig) (st : CaptureState) (chunk : String)
    (h : CaptureInv st) : CaptureInv (processChunk cfg st chunk) := by
  unfold processChunk
  split
  · exact captureInv_flush st h
  · dsimp only
    split
    · exact captureInv_flush _ (captureInv_processLines cfg _ st h)
    · exact captureInv_processLines cfg _ st h

/-- Every state reached by a scripted run satisfies the capture invariant. -/
theorem captureInv_run (cfg : CaptureConfig) :
    ∀ (script : List String) (st : CaptureState), CaptureInv st →
      CaptureInv (script.foldl (processChunk cfg) st)
| [], _, h => h
| c :: cs, st, h =>
  captureInv_run cfg cs (processChunk cfg st c) (captureInv_processChunk cfg st c h)

/-- C7 (amended): in every step of the capture loop the event list is left
unchanged, extended by the decoded event, or cleared as a whole and
restarted with exactly that event — never partially truncated; and in every
reachable state, consecutive accumulated events never jump backward by more
than the 5000 ms reset slack (full non-decreasing sortedness does not hold,
see the counterexample). -/
theorem C7_amended :
    (∀ (cfg : CaptureConfig) (st : CaptureState) (line : String),
      (processLine cfg st line).1.events = st.events ∨
      (∃ ev, parse_log_line line = some ev ∧
        ((processLine cfg st line).1.events = st.events ++ [ev] ∨
         (processLine cfg st line).1.events = [ev]))) ∧
    (∀ (cfg : CaptureConfig) (script : List String),
      List.Chain' (fun a b => ¬ (b.t_ms + 5000 < a.t_ms)) (runCapture cfg script).events) := by
  constructor
  · intro cfg st line
    unfold processLine
    cases hp : parse_log_line line with
    | none =>
      left
      simp only
      split <;> simp [flushRaw]
    | some ev =>
      simp only
      by_cases hb : st.boot_started = false
      · rw [if_pos (by simpa using hb)]
        by_cases hstale : cfg.triggered_reboot = true ∧ 3000 < ev.t_ms
        · rw [if_pos hstale]; left; rfl
        · rw [if_neg hstale]
          right
          refine ⟨ev, rfl, Or.inl ?_⟩
          split <;> simp [flushRaw]
      · rw [if_neg hb]
        right
        refine ⟨ev, rfl, ?_⟩
        cases hlt : st.last_t_ms with
        | none =>
          left
          split <;> simp [flushRaw]
        | some l =>
          dsimp only
          by_cases hreset : ev.t_ms + 5000 < l
          · rw [if_pos hreset]
            right
            split <;> simp [flushRaw]
          · rw [if_neg hreset]
            left
            split <;> simp [flushRaw]
  · intro cfg script
    exact (captureInv_run cfg script initState captureInv_init).1

/-- Characterization of one `advanceCursor` run over a sorted zipper: it
walks past a (possibly empty) block of samples at or before `t`, lands on
`cur` itself or on a sample at or before `t`, and stops with the next
remaining sample strictly after `t`. -/
theorem advanceCursor_spec (t : Nat) :
    ∀ (rest : List HealthSample) (cur : HealthSample),
      List.Pairwise sampleLE (cur :: rest) →
      ∃ dropped,
        cur :: rest = dropped ++ (advanceCursor t cur rest).1 :: (advanceCursor t cur rest).2 ∧
        (∀ x ∈ dropped, x.uptime_ms ≤ (t : Int)) ∧
        (dropped = [] → (advanceCursor t cur rest).1 = cur ∧ (advanceCursor t cur rest).2 = rest) ∧
        (dropped ≠ [] → (advanceCursor t cur rest).1.uptime_ms ≤ (t : Int)) ∧
        (∀ y ∈ (advanceCursor t cur rest).2.head?, ¬ (y.uptime_ms ≤ (t : Int)))
| [], cur, _ => by
  refine ⟨[], by simp [advanceCursor], by simp, by simp [advanceCursor], by simp, ?_⟩
  simp [advanceCursor]
| s :: r, cur, hsorted => by
  by_cases hs : s.uptime_ms ≤ (t : Int)
  · have hrec := advanceCursor_spec t r s (hsorted.sublist (List.sublist_cons_self _ _))
    obtain ⟨dropped2, hdec, hall, hnil, hnonnil, hstop⟩ := hrec
    have hadv : advanceCursor t cur (s :: r) = advanceCursor t s r := by
      simp [advanceCursor, hs]
    refine ⟨cur :: dropped2, ?_, ?_, ?_, ?_, ?_⟩
    · rw [hadv]
      simpa using hdec
    · intro x hx
      rcases List.mem_cons.mp hx with hx | hx
      · subst hx
        have hcs : sampleLE x s := (List.pairwise_cons.mp hsorted).1 s (List.mem_cons_self _ _)
        exact le_trans hcs hs
      · exact hall x hx
    · intro habs
      exact absurd habs (by simp)
    · intro _
      rw [hadv]
      rcases List.eq_nil_or_concat dropped2 with h2 | _
      · rw [(hnil h2).1]
        exact hs
      · rcases List.eq_nil_or_concat dropped2 with h2 | h2
        · rw [(hnil h2).1]; exact hs
        · exact hnonnil (by rcases h2 with ⟨a, b, rfl⟩; simp)
    · rw [hadv]
      exact hstop
  · refine ⟨[], by simp [advanceCursor, hs], by simp, by simp [advanceCursor, hs], by simp, ?_⟩
    intro y hy
    simp only [advanceCursor, if_neg hs, List.head?_cons, Option.mem_def, Option.some.injEq] at hy
    subst hy
    exact hs

/-- Correctness of the per-event loop of the joiner relative to the full
sorted sample list `all`: the rows follow the event list, and each row's
sample is the nearest previous one in `all`. -/
theorem joinGo_spec (all : List HealthSample) (hall : List.Pairwise sampleLE all) :
    ∀ (es : List LogEvent) (cur : HealthSample) (rest dropped : List HealthSample) (bound : Int),
      List.Pairwise eventLE es →
      all = dropped ++ cur :: rest →
      (dropped = [] ∨ cur.uptime_ms ≤ bound) →
      (∀ e ∈ es, bound ≤ (e.t_ms : Int)) →
      (joinGo cur rest es).map Prod.fst = es ∧
      ∀ p ∈ joinGo cur rest es,
        (p.2 = none ↔ ∀ s ∈ all, ¬ (s.uptime_ms ≤ (p.1.t_ms : Int))) ∧
        (∀ s, p.2 = some s → s ∈ all ∧ s.uptime_ms ≤ (p.1.t_ms : Int) ∧
          ∀ x ∈ all, x.uptime_ms ≤ (p.1.t_ms : Int) → x.uptime_ms ≤ s.uptime_ms)
| [], cur, rest, dropped, bound, _, _, _, _ => by
  constructor
  · rfl
  · intro p hp
    simp [joinGo] at hp
| e :: es, cur, rest, dropped, bound, hes, hdec, hdisj, hbound => by
  have hsorted : List.Pairwise sampleLE (cur :: rest) :=
    hall.sublist (hdec ▸ (List.suffix_append dropped (cur :: rest)).sublist)
  obtain ⟨dropped2, hdec2, hall2, hnil2, hnonnil2, hstop2⟩ :=
    advanceCursor_spec e.t_ms rest cur hsorted
  have hbe : bound ≤ (e.t_ms : Int) := hbound e (List.mem_cons_self _ _)
  have hdecAll : all = (dropped ++ dropped2) ++
      (advanceCursor e.t_ms cur rest).1 :: (advanceCursor e.t_ms cur rest).2 := by
    rw [hdec, hdec2, List.append_assoc]
  have hrest2 : ∀ x ∈ (advanceCursor e.t_ms cur rest).2,
      ¬ (x.uptime_ms ≤ (e.t_ms : Int)) := by
    intro x hx
    have hsorted2 : List.Pairwise sampleLE
        ((advanceCursor e.t_ms cur rest).1 :: (advanceCursor e.t_ms cur rest).2) :=
      hall.sublist (hdecAll ▸ (List.suffix_append _ _).sublist)
    cases h2 : (advanceCursor e.t_ms cur rest).2 with
    | nil => rw [h2] at hx; simp at hx
    | cons y r2 =>
      have hy : ¬ (y.uptime_ms ≤ (e.t_ms : Int)) := by
        apply hstop2
        rw [h2]
        rfl
      rw [h2] at hx
      rcases List.mem_cons.mp hx with hx | hx
      · subst hx; exact hy
      · intro hxle
        have hsorted3 : List.Pairwise sampleLE (y :: r2) := by
          rw [h2] at hsorted2
          exact (List.pairwise_cons.mp hsorted2).2
        have : sampleLE y x := (List.pairwise_cons.mp hsorted3).1 x hx
        exact hy (le_trans this hxle)
  have hmax : (advanceCursor e.t_ms cur rest).1.uptime_ms ≤ (e.t_ms : Int) →
      ∀ x ∈ all, x.uptime_ms ≤ (e.t_ms : Int) →
        x.uptime_ms ≤ (advanceCursor e.t_ms cur rest).1.uptime_ms := by
    intro _ x hx hxle
    rw [hdecAll] at hx
    rcases List.mem_append.mp hx with hx | hx
    · have hpa := (List.pairwise_append.mp (hdecAll ▸ hall)).2.2
      exact hpa x hx _ (List.mem_cons_self _ _)
    · rcases List.mem_cons.mp hx with hx | hx
      · subst hx; exact le_refl _
      · exact absurd hxle (hrest2 x hx)
  have hdisjNew : dropped ++ dropped2 = [] ∨
      (advanceCursor e.t_ms cur rest).1.uptime_ms ≤ ((e.t_ms : Int)) := by
    rcases List.eq_nil_or_concat dropped2 with h2 | h2
    · rcases hdisj with h | h
      · exact Or.inl (by simp [h, h2])
      · refine Or.inr ?_
        rw [(hnil2 h2).1]
        exact le_trans h hbe
    · refine Or.inr (hnonnil2 ?_)
      rcases h2 with ⟨a, b, rfl⟩; simp
  have hboundNew : ∀ x ∈ es, ((e.t_ms : Int)) ≤ ((x.t_ms : Int)) := by
    intro x hx
    exact Int.ofNat_le.mpr ((List.pairwise_cons.mp hes).1 x hx)
  have hrec := joinGo_spec all hall es (advanceCursor e.t_ms cur rest).1
      (advanceCursor e.t_ms cur rest).2 (dropped ++ dropped2) ((e.t_ms : Int))
      ((List.pairwise_cons.mp hes).2) hdecAll hdisjNew hboundNew
  constructor
  · show List.map Prod.fst
        ((e, if (advanceCursor e.t_ms cur rest).1.uptime_ms ≤ ((e.t_ms : Int))
             then some (advanceCursor e.t_ms cur rest).1 else none) ::
          joinGo (advanceCursor e.t_ms cur rest).1 (advanceCursor e.t_ms cur rest).2 es) =
        e :: es
    rw [List.map_cons, hrec.1]
  · intro p hp
    rcases List.mem_cons.mp hp with hp | hp
    · subst hp
      by_cases hcur2 : (advanceCursor e.t_ms cur rest).1.uptime_ms ≤ (e.t_ms : Int)
      · simp only [if_pos hcur2]
        constructor
        · simp only [Option.some_ne_none, false_iff]
          intro habs
          exact habs _ (by rw [hdecAll]; exact List.mem_append_right _ (List.mem_cons_self _ _)) hcur2
        · intro s hse
          cases hse
          exact ⟨by rw [hdecAll]; exact List.mem_append_right _ (List.mem_cons_self _ _),
            hcur2, hmax hcur2⟩
      · simp only [if_neg hcur2]
        have hd2 : dropped2 = [] := by
          rcases List.eq_nil_or_concat dropped2 with h2 | h2
          · exact h2
          · exact absurd (hnonnil2 (by rcases h2 with ⟨a, b, rfl⟩; simp)) hcur2
        have hcc : (advanceCursor e.t_ms cur rest).1 = cur := (hnil2 hd2).1
        have hd : dropped = [] := by
          rcases hdisj with h | h
          · exact h
          · exfalso
            apply hcur2
            rw [hcc]
            exact le_trans h hbe
        constructor
        · simp only [true_iff]
          intro x hx
          rw [hdecAll, hd, hd2] at hx
          simp only [List.append_nil, List.nil_append] at hx
          rcases List.mem_cons.mp hx with hx | hx
          · subst hx; exact hcur2
          · exact hrest2 x hx
        · intro s hse
          cases hse
    · exact (hrec.2 p hp)

/-- C2 (amended): one row per event; when the samples are nonempty the rows
follow the events re-sorted ascending by timestamp, while with an empty
sample list the rows keep the original event order, each pairing no sample;
and, for sorted samples, each row pairs its event with a sample of maximal
uptime at or before the event's timestamp, pairing none exactly when no
sample is at or before it. -/
theorem C2_amended (events : List LogEvent) (samples : List HealthSample)
    (hs : List.Pairwise sampleLE samples) :
    (join_events_to_samples events samples).length = events.length ∧
    List.Perm ((join_events_to_samples events samples).map Prod.fst) events ∧
    (samples = [] →
      join_events_to_samples events samples = events.map (fun e => (e, none))) ∧
    (samples ≠ [] →
      List.Pairwise eventLE ((join_events_to_samples events samples).map Prod.fst)) ∧
    ∀ p ∈ join_events_to_samples events samples,
      (p.2 = none ↔ ∀ s ∈ samples, ¬ (s.uptime_ms ≤ (p.1.t_ms : Int))) ∧
      (∀ s, p.2 = some s → s ∈ samples ∧ s.uptime_ms ≤ (p.1.t_ms : Int) ∧
        ∀ x ∈ samples, x.uptime_ms ≤ (p.1.t_ms : Int) → x.uptime_ms ≤ s.uptime_ms) := by
  cases samples with
  | nil =>
    refine ⟨by simp [join_events_to_samples], ?_, fun _ => rfl, fun h => absurd rfl h, ?_⟩
    · show List.Perm ((events.map (fun e => (e, (none : Option HealthSample)))).map Prod.fst) events
      rw [List.map_map,
        show (Prod.fst ∘ fun e : LogEvent => (e, (none : Option HealthSample))) = id from rfl,
        List.map_id]
    · intro p hp
      simp only [join_events_to_samples, List.mem_map] at hp
      obtain ⟨e, _, rfl⟩ := hp
      exact ⟨by simp, fun s hse => by cases hse⟩
  | cons s0 srest =>
    have hspec := joinGo_spec (s0 :: srest) hs (sortEventsByTime events) s0 srest [] (-1)
      (List.sorted_insertionSort eventLE events) rfl (Or.inl rfl)
      (fun e _ => by
        have : (0 : Int) ≤ (e.t_ms : Int) := Int.ofNat_nonneg _
        omega)
    have hperm : List.Perm (sortEventsByTime events) events :=
      List.perm_insertionSort eventLE events
    refine ⟨?_, ?_, fun h => absurd h (List.cons_ne_nil s0 srest), fun _ => ?_, hspec.2⟩
    · show (joinGo s0 srest (sortEventsByTime events)).length = events.length
      rw [← List.length_map (joinGo s0 srest (sortEventsByTime events)) Prod.fst, hspec.1]
      exact hperm.length_eq
    · show List.Perm ((joinGo s0 srest (sortEventsByTime events)).map Prod.fst) events
      rw [hspec.1]
      exact hperm
    · show List.Pairwise eventLE ((joinGo s0 srest (sortEventsByTime events)).map Prod.fst)
      rw [hspec.1]
      exact List.sorted_insertionSort eventLE events

/-- Witness for C2 at the spec's own example: three sorted samples at
uptimes 0, 100, 300 and an event at t = 250 pair the event with the sample
at uptime 100 (nearest previous, not nearest overall). -/
theorem C2_witness :
    List.Pairwise sampleLE
      [⟨0, none, 0, 0, 0⟩, ⟨100, none, 0, 0, 0⟩, ⟨300, none, 0, 0, 0⟩] ∧
    (join_events_to_samples [⟨250, "", "", ""⟩]
      [⟨0, none, 0, 0, 0⟩, ⟨100, none, 0, 0, 0⟩, ⟨300, none, 0, 0, 0⟩]).length = 1 ∧
    (join_events_to_samples [⟨250, "", "", ""⟩]
      [⟨0, none, 0, 0, 0⟩, ⟨100, none, 0, 0, 0⟩, ⟨300, none, 0, 0, 0⟩]).map
        (fun p => p.2.map HealthSample.uptime_ms) = [some 100] :=
  ⟨by decide,
   (C2_amended [⟨250, "", "", ""⟩]
     [⟨0, none, 0, 0, 0⟩, ⟨100, none, 0, 0, 0⟩, ⟨300, none, 0, 0, 0⟩] (by decide)).1,
   by decide⟩

/-- Inversion for the per-field length check of the health parser. -/
theorem checkedArr_ok (v : Option JField) (name : String) (n : Nat) (xs : List JLeaf)
    (h : checkedArr v name n = Except.ok xs) : getArr v = some xs ∧ xs.length = n := by
  unfold checkedArr at h
  cases hv : getArr v with
  | none =>
    simp only [hv] at h
    exact Except.noConfusion h
  | some ys =>
    simp only [hv] at h
    have hl : ys.length = n := by
      by_contra hl
      rw [if_neg hl] at h
      exact Except.noConfusion h
    rw [if_pos hl] at h
    injection h with h2
    subst h2
    exact ⟨rfl, hl⟩

/-- The per-field length check accepts a present array of the right length. -/
theorem checkedArr_total (v : Option JField) (name : String) (n : Nat) (xs : List JLeaf)
    (hv : getArr v = some xs) (hl : xs.length = n) : checkedArr v name n = Except.ok xs := by
  unfold checkedArr
  simp only [hv]
  rw [if_pos hl]

/-- A successful lockstep walk produces one sample per uptime entry, each
sample's cpu value converted from some entry of the cpu list. -/
theorem buildSamples_spec :
    ∀ (us cs hfs hls pss : List JLeaf) (l : List HealthSample),
      buildSamples us cs hfs hls pss = Except.ok l →
      l.length = us.length ∧ (∀ s ∈ l, ∃ c ∈ cs, s.cpu_usage = leafCpu c) := by
  intro us
  induction us with
  | nil =>
    intro cs hfs hls pss l h
    injection h with h2
    subst h2
    exact ⟨rfl, fun s hs => absurd hs (List.not_mem_nil s)⟩
  | cons u us ih =>
    intro cs hfs hls pss l h
    cases cs with
    | nil => exact Except.noConfusion h
    | cons c cs =>
    cases hfs with
    | nil => exact Except.noConfusion h
    | cons f0 hfs =>
    cases hls with
    | nil => exact Except.noConfusion h
    | cons l0 hls =>
    cases pss with
    | nil => exact Except.noConfusion h
    | cons p0 pss =>
    simp only [buildSamples] at h
    cases htu : leafInt u with
    | error e =>
      simp only [htu] at h
      exact Except.noConfusion h
    | ok t =>
      simp only [htu] at h
      cases htf : leafInt f0 with
      | error e =>
      simp only [htf] at h
      exact Except.noConfusion h
      | ok hfv =>
        simp only [htf] at h
        cases htl : leafInt l0 with
        | error e =>
      simp only [htl] at h
      exact Except.noConfusion h
        | ok hlv =>
          simp only [htl] at h
          cases htp : leafInt p0 with
          | error e =>
      simp only [htp] at h
      exact Except.noConfusion h
          | ok psv =>
            simp only [htp] at h
            cases hrest : buildSamples us cs hfs hls pss with
            | error e =>
      simp only [hrest] at h
      exact Except.noConfusion h
            | ok rest =>
              simp only [hrest] at h
              injection h with h2
              subst h2
              obtain ⟨ihlen, ihcpu⟩ := ih cs hfs hls pss rest hrest
              refine ⟨by simp [ihlen], ?_⟩
              intro s hs
              rcases List.mem_cons.mp hs with hs | hs
              · subst hs
                exact ⟨c, List.mem_cons_self _ _, rfl⟩
              · obtain ⟨c2, hc2, hcpu⟩ := ihcpu s hs
                exact ⟨c2, List.mem_cons_of_mem _ hc2, hcpu⟩

/-- The lockstep walk succeeds when the four numeric arrays have equal
lengths and contain only numeric entries (the cpu list only needs the right
length, since its conversion never fails). -/
theorem buildSamples_total :
    ∀ (us cs hfs hls pss : List JLeaf),
      cs.length = us.length → hfs.length = us.length → hls.length = us.length →
      pss.length = us.length →
      (∀ x ∈ us, ∃ i, x = JLeaf.jint i) → (∀ x ∈ hfs, ∃ i, x = JLeaf.jint i) →
      (∀ x ∈ hls, ∃ i, x = JLeaf.jint i) → (∀ x ∈ pss, ∃ i, x = JLeaf.jint i) →
      ∃ l, buildSamples us cs hfs hls pss = Except.ok l := by
  intro us
  induction us with
  | nil =>
    intro cs hfs hls pss _ _ _ _ _ _ _ _
    exact ⟨[], rfl⟩
  | cons u us ih =>
    intro cs hfs hls pss hcl hfl hll hpl hu hhf hhl hhp
    cases cs with
    | nil => simp at hcl
    | cons c cs =>
    cases hfs with
    | nil => simp at hfl
    | cons f0 hfs =>
    cases hls with
    | nil => simp at hll
    | cons l0 hls =>
    cases pss with
    | nil => simp at hpl
    | cons p0 pss =>
    obtain ⟨iu, rfl⟩ := hu u (List.mem_cons_self _ _)
    obtain ⟨i1, rfl⟩ := hhf f0 (List.mem_cons_self _ _)
    obtain ⟨i2, rfl⟩ := hhl l0 (List.mem_cons_self _ _)
    obtain ⟨i3, rfl⟩ := hhp p0 (List.mem_cons_self _ _)
    obtain ⟨rest, hrest⟩ := ih cs hfs hls pss
      (by simpa using hcl) (by simpa using hfl) (by simpa using hll) (by simpa using hpl)
      (fun x hx => hu x (List.mem_cons_of_mem _ hx))
      (fun x hx => hhf x (List.mem_cons_of_mem _ hx))
      (fun x hx => hhl x (List.mem_cons_of_mem _ hx))
      (fun x hx => hhp x (List.mem_cons_of_mem _ hx))
    exact ⟨⟨iu, leafCpu c, i1, i2, i3⟩ :: rest, by simp [buildSamples, leafInt, hrest]⟩

/-- The cpu column list always has exactly one entry per uptime entry. -/
theorem cpuList_length (v : Option JField) (n : Nat) :
    (match getArr v with
     | some c => if c.length = n then c else List.replicate n JLeaf.jnull
     | none => List.replicate n JLeaf.jnull).length = n := by
  cases getArr v with
  | none => simp
  | some c => by_cases hc : c.length = n <;> simp [hc]

/-- Inversion of a successful `parse_health_history` run. -/
theorem parse_health_history_ok_inv (hist : HistDoc) (l : List HealthSample)
    (hp : parse_health_history hist = Except.ok l) :
    ∃ (u hf hl ps : List JLeaf) (samples : List HealthSample),
      getArr hist.uptime_ms = some u ∧
      getArr hist.heap_internal_free = some hf ∧ hf.length = u.length ∧
      getArr hist.heap_internal_largest = some hl ∧ hl.length = u.length ∧
      getArr hist.psram_free = some ps ∧ ps.length = u.length ∧
      buildSamples u
        (match getArr hist.cpu_usage with
         | some c => if c.length = u.length then c else List.replicate u.length JLeaf.jnull
         | none => List.replicate u.length JLeaf.jnull) hf hl ps = Except.ok samples ∧
      l = List.insertionSort sampleLE samples := by
  unfold parse_health_history at hp
  cases hu : getArr hist.uptime_ms with
  | none =>
    simp only [hu] at hp
    exact Except.noConfusion hp
  | some u =>
    simp only [hu] at hp
    cases h1 : checkedArr hist.heap_internal_free "heap_internal_free" u.length with
    | error e =>
      simp only [h1] at hp
      exact Except.noConfusion hp
    | ok hf =>
      simp only [h1] at hp
      cases h2 : checkedArr hist.heap_internal_largest "heap_internal_largest" u.length with
      | error e =>
      simp only [h2] at hp
      exact Except.noConfusion hp
      | ok hl =>
        simp only [h2] at hp
        cases h3 : checkedArr hist.psram_free "psram_free" u.length with
        | error e =>
      simp only [h3] at hp
      exact Except.noConfusion hp
        | ok ps =>
          simp only [h3] at hp
          cases h4 : buildSamples u
              (match getArr hist.cpu_usage with
               | some c => if c.length = u.length then c else List.replicate u.length JLeaf.jnull
               | none => List.replicate u.length JLeaf.jnull) hf hl ps with
          | error e =>
      simp only [h4] at hp
      exact Except.noConfusion hp
          | ok samples =>
            simp only [h4] at hp
            obtain ⟨hv1, hl1⟩ := checkedArr_ok _ _ _ _ h1
            obtain ⟨hv2, hl2⟩ := checkedArr_ok _ _ _ _ h2
            obtain ⟨hv3, hl3⟩ := checkedArr_ok _ _ _ _ h3
            exact ⟨u, hf, hl, ps, samples, rfl, hv1, hl1, hv2, hl2, hv3, hl3, h4,
              by injection hp with h5; exact h5.symm⟩

/-- C8: the health-history parser rejects a document whose uptime field is
not an array, and one whose heap or psram arrays are absent or of mismatched
length; a missing cpu field instead degrades every sample's cpu value to
unknown without rejecting; and a successful parse yields exactly one sample
per uptime entry, sorted ascending by uptime. -/
theorem C8_health_history_validation :
    (∀ hist : HistDoc, getArr hist.uptime_ms = none →
      ∀ l, parse_health_history hist ≠ Except.ok l) ∧
    (∀ (hist : HistDoc) (u : List JLeaf), getArr hist.uptime_ms = some u →
      ((¬ ∃ xs, getArr hist.heap_internal_free = some xs ∧ xs.length = u.length) ∨
       (¬ ∃ xs, getArr hist.heap_internal_largest = some xs ∧ xs.length = u.length) ∨
       (¬ ∃ xs, getArr hist.psram_free = some xs ∧ xs.length = u.length)) →
      ∀ l, parse_health_history hist ≠ Except.ok l) ∧
    (∀ (hist : HistDoc) (l : List HealthSample), hist.cpu_usage = none →
      parse_health_history hist = Except.ok l → ∀ s ∈ l, s.cpu_usage = none) ∧
    (∀ (hist : HistDoc) (u : List JLeaf) (l : List HealthSample),
      getArr hist.uptime_ms = some u →
      parse_health_history hist = Except.ok l →
      l.length = u.length ∧ List.Pairwise sampleLE l) ∧
    (∀ (hist : HistDoc) (u hf hl ps : List JLeaf),
      getArr hist.uptime_ms = some u →
      getArr hist.heap_internal_free = some hf → hf.length = u.length →
      getArr hist.heap_internal_largest = some hl → hl.length = u.length →
      getArr hist.psram_free = some ps → ps.length = u.length →
      (∀ x ∈ u, ∃ i, x = JLeaf.jint i) → (∀ x ∈ hf, ∃ i, x = JLeaf.jint i) →
      (∀ x ∈ hl, ∃ i, x = JLeaf.jint i) → (∀ x ∈ ps, ∃ i, x = JLeaf.jint i) →
      ∃ l, parse_health_history hist = Except.ok l) := by
  refine ⟨?_, ?_, ?_, ?_, ?_⟩
  · intro hist h l hp
    unfold parse_health_history at hp
    simp only [h] at hp
    exact Except.noConfusion hp
  · intro hist u hu hbad l hp
    obtain ⟨u2, hf, hl, ps, samples, hu2, hv1, hl1, hv2, hl2, hv3, hl3, _, _⟩ :=
      parse_health_history_ok_inv hist l hp
    rw [hu] at hu2
    injection hu2 with hu2
    subst hu2
    rcases hbad with hb | hb | hb
    · exact hb ⟨hf, hv1, hl1⟩
    · exact hb ⟨hl, hv2, hl2⟩
    · exact hb ⟨ps, hv3, hl3⟩
  · intro hist l hcpu hp s hs
    obtain ⟨u, hf, hl, ps, samples, hu, _, _, _, _, _, _, hbuild, hsort⟩ :=
      parse_health_history_ok_inv hist l hp
    rw [hcpu] at hbuild
    have hget : getArr (none : Option JField) = none := rfl
    rw [hget] at hbuild
    obtain ⟨_, hcpuall⟩ := buildSamples_spec _ _ _ _ _ _ hbuild
    have hmem : s ∈ samples := by
      rw [hsort] at hs
      exact (List.perm_insertionSort sampleLE samples).mem_iff.mp hs
    obtain ⟨c, hc, heq⟩ := hcpuall s hmem
    rw [List.eq_of_mem_replicate hc] at heq
    exact heq
  · intro hist u l hu hp
    obtain ⟨u2, hf, hl, ps, samples, hu2, _, _, _, _, _, _, hbuild, hsort⟩ :=
      parse_health_history_ok_inv hist l hp
    rw [hu] at hu2
    injection hu2 with hu2
    subst hu2
    obtain ⟨hlen, _⟩ := buildSamples_spec _ _ _ _ _ _ hbuild
    constructor
    · rw [hsort, (List.perm_insertionSort sampleLE samples).length_eq]
      exact hlen
    · rw [hsort]
      exact List.sorted_insertionSort sampleLE samples
  · intro hist u hf hl ps hu hv1 hl1 hv2 hl2 hv3 hl3 hnu hnf hnl hnp
    obtain ⟨lst, hbuild⟩ := buildSamples_total u
      (match getArr hist.cpu_usage with
       | some c => if c.length = u.length then c else List.replicate u.length JLeaf.jnull
       | none => List.replicate u.length JLeaf.jnull) hf hl ps
      (cpuList_length hist.cpu_usage u.length) hl1 hl2 hl3 hnu hnf hnl hnp
    refine ⟨List.insertionSort sampleLE lst, ?_⟩
    unfold parse_health_history
    rw [hu]
    simp only [checkedArr_total _ "heap_internal_free" _ _ hv1 hl1,
      checkedArr_total _ "heap_internal_largest" _ _ hv2 hl2,
      checkedArr_total _ "psram_free" _ _ hv3 hl3, hbuild]

/-- Witness for C8 at a concrete document with two samples, uptimes out of
order and no cpu field: parsing succeeds, yields two samples sorted by
uptime, and every cpu value is unknown. -/
theorem C8_witness :
    (∀ l, parse_health_history histDocExample = Except.ok l →
      (l.length = 2 ∧ List.Pairwise sampleLE l) ∧ ∀ s ∈ l, s.cpu_usage = none) ∧
    (∃ l, parse_health_history histDocExample = Except.ok l) := by
  constructor
  · intro l hp
    exact ⟨C8_health_history_validation.2.2.2.1 histDocExample
             [JLeaf.jint 5, JLeaf.jint 2] l rfl hp,
           C8_health_history_validation.2.2.1 histDocExample l rfl hp⟩
  · refine C8_health_history_validation.2.2.2.2 histDocExample
      [JLeaf.jint 5, JLeaf.jint 2] [JLeaf.jint 10, JLeaf.jint 20]
      [JLeaf.jint 11, JLeaf.jint 21] [JLeaf.jint 12, JLeaf.jint 22]
      rfl rfl rfl rfl rfl rfl rfl ?_ ?_ ?_ ?_ <;>
    · intro x hx
      simp only [List.mem_cons, List.not_mem_nil, or_false] at hx
      rcases hx with rfl | rfl
      · exact ⟨_, rfl⟩
      · exact ⟨_, rfl⟩

/-- The takeWhile prefix is no longer than the list. -/
theorem takeWhile_len_le (p : Char → Bool) : ∀ l : List Char, (l.takeWhile p).length ≤ l.length
| [] => le_refl _
| c :: cs => by
  simp only [List.takeWhile]
  cases p c with
  | false => simp
  | true =>
    simp only [List.length_cons, Nat.succ_le_succ_iff]
    exact takeWhile_len_le p cs

/-- An anchored embedded-timestamp match is 5 to `cs.length` characters
long. -/
theorem tsMatchLen_bounds (cs : List Char) (len : Nat) (h : tsMatchLen cs = some len) :
    5 ≤ len ∧ len ≤ cs.length := by
  cases cs with
  | nil => exact Option.noConfusion h
  | cons c rest =>
    simp only [tsMatchLen] at h
    by_cases hc : c = '['
    · rw [if_pos hc] at h
      by_cases hd : (rest.takeWhile Char.isDigit).isEmpty = true
      · rw [if_pos hd] at h
        exact Option.noConfusion h
      · rw [if_neg hd] at h
        rcases hdrop : rest.drop (rest.takeWhile Char.isDigit).length with _ | ⟨a, _ | ⟨b, _ | ⟨d, t⟩⟩⟩
        · simp only [hdrop] at h
          exact Option.noConfusion h
        · simp only [hdrop] at h
          exact Option.noConfusion h
        · simp only [hdrop] at h
          exact Option.noConfusion h
        · simp only [hdrop] at h
          split at h
          · injection h with h2
            have hpos : 0 < (rest.takeWhile Char.isDigit).length := by
              rcases hw : rest.takeWhile Char.isDigit with _ | _
              · rw [hw] at hd; simp at hd
              · simp [hw]
            have hlen := congrArg List.length hdrop
            rw [List.length_drop] at hlen
            simp only [List.length_cons] at hlen
            have htk := takeWhile_len_le Char.isDigit rest
            constructor
            · omega
            · simp only [List.length_cons]
              omega
          · exact Option.noConfusion h
    · rw [if_neg hc] at h
      exact Option.noConfusion h

/-- Every match reported by the scanner lies within the scanned region, is
at least five characters long, and the matches are in strictly increasing
non-overlapping order. -/
theorem findTsAux_bounds :
    ∀ (fuel : Nat) (cs : List Char) (pos : Nat),
      (∀ m ∈ findTsAux fuel cs pos, pos ≤ m.1 ∧ m.1 + 5 ≤ m.2 ∧ m.2 ≤ pos + cs.length) ∧
      List.Chain' (fun a b => a.2 ≤ b.1) (findTsAux fuel cs pos) := by
  intro fuel
  induction fuel with
  | zero =>
    intro cs pos
    exact ⟨fun m hm => absurd hm (List.not_mem_nil m), List.chain'_nil⟩
  | succ fuel ih =>
    intro cs pos
    cases cs with
    | nil => exact ⟨fun m hm => absurd hm (List.not_mem_nil m), List.chain'_nil⟩
    | cons c rest =>
      cases hm : tsMatchLen (c :: rest) with
      | none =>
        simp only [findTsAux, hm]
        obtain ⟨hb, hch⟩ := ih rest (pos + 1)
        refine ⟨fun m hmem => ?_, hch⟩
        obtain ⟨h1, h2, h3⟩ := hb m hmem
        simp only [List.length_cons]
        omega
      | some len =>
        simp only [findTsAux, hm]
        obtain ⟨h5, hlen⟩ := tsMatchLen_bounds _ _ hm
        obtain ⟨hb, hch⟩ := ih ((c :: rest).drop len) (pos + len)
        have hdl : ((c :: rest).drop len).length = (c :: rest).length - len :=
          List.length_drop _ _
        constructor
        · intro m hmem
          rcases List.mem_cons.mp hmem with hmem | hmem
          · subst hmem
            refine ⟨le_refl _, by omega, by omega⟩
          · obtain ⟨h1, h2, h3⟩ := hb m hmem
            refine ⟨by omega, h2, by omega⟩
        · refine List.chain'_cons'.mpr ⟨?_, hch⟩
          intro y hy
          have hymem := List.mem_of_mem_head? hy
          exact (hb y hymem).1

/-- Slicing a line at match starts: one nonempty chunk per match, and the
chunks concatenate back to the suffix of the line from the first start. -/
theorem sliceChunks_spec :
    ∀ (ms : List (Nat × Nat)) (line : List Char) (s e : Nat),
      (∀ m ∈ (s, e) :: ms, m.1 + 5 ≤ m.2 ∧ m.2 ≤ line.length) →
      List.Chain' (fun a b => a.2 ≤ b.1) ((s, e) :: ms) →
      (sliceChunks line ((s, e) :: ms)).length = ms.length + 1 ∧
      (sliceChunks line ((s, e) :: ms)).flatten = line.drop s
| [], line, s, e, hb, _ => by
  obtain ⟨h5, hle⟩ := hb (s, e) (List.mem_cons_self _ _)
  have hne : (line.drop s) ≠ [] := by
    have : (line.drop s).length = line.length - s := List.length_drop _ _
    intro habs
    rw [habs] at this
    simp only [List.length_nil] at this
    omega
  have hempP : ¬ ((line.drop s).isEmpty = true) := by
    rcases hld : line.drop s with _ | _
    · exact absurd hld hne
    · simp
  simp only [sliceChunks]
  rw [if_neg hempP]
  simp
| (s2, e2) :: ms, line, s, e, hb, hch => by
  obtain ⟨h5, hle⟩ := hb (s, e) (List.mem_cons_self _ _)
  have hs2 : e ≤ s2 := (List.chain'_cons.mp hch).1
  obtain ⟨h52, hle2⟩ := hb (s2, e2) (List.mem_cons_of_mem _ (List.mem_cons_self _ _))
  have hchunklen : ((line.drop s).take (s2 - s)).length = min (s2 - s) (line.length - s) := by
    rw [List.length_take, List.length_drop]
  have hne : ((line.drop s).take (s2 - s)) ≠ [] := by
    intro habs
    rw [habs] at hchunklen
    simp only [List.length_nil] at hchunklen
    omega
  have hempP : ¬ (((line.drop s).take (s2 - s)).isEmpty = true) := by
    rcases hld : (line.drop s).take (s2 - s) with _ | _
    · exact absurd hld hne
    · simp
  have hrec := sliceChunks_spec ms line s2 e2
    (fun m hm => hb m (List.mem_cons_of_mem _ hm)) (List.chain'_cons.mp hch).2
  simp only [sliceChunks]
  rw [if_neg hempP]
  constructor
  · simp only [List.cons_append, List.nil_append, List.length_cons, hrec.1]
  · simp only [List.cons_append, List.nil_append, List.flatten_cons, hrec.2]
    rw [show line.drop s2 = (line.drop s).drop (s2 - s) by
      rw [List.drop_drop]
      congr 1
      omega]
    exact List.take_append_drop _ _

/-- The split condition and outcome of one line of
`split_embedded_timestamp_lines`: with at least two embedded timestamps the
first of which at offset 0, the line splits into one chunk per match whose
concatenation is the whole line; otherwise it is passed through unchanged. -/
theorem splitOneLine_spec (line : List Char) :
    ((2 ≤ (findTs line).length ∧ (findTs line).head?.map Prod.fst = some 0) →
      (splitOneLine line).length = (findTs line).length ∧
      (splitOneLine line).flatten = line) ∧
    (¬ (2 ≤ (findTs line).length ∧ (findTs line).head?.map Prod.fst = some 0) →
      splitOneLine line = [line]) := by
  have hbounds := findTsAux_bounds line.length line 0
  constructor
  · rintro ⟨h2, h0⟩
    cases hms : findTs line with
    | nil => rw [hms] at h2; simp at h2
    | cons m ms =>
      obtain ⟨s, e⟩ := m
      rw [hms] at h2 h0
      simp only [List.head?_cons, Option.map_some'] at h0
      injection h0 with h0
      have hs0 : s = 0 := h0
      subst hs0
      have hms2 : findTsAux line.length line 0 = (0, e) :: ms := hms
      have hlen2 : ¬ (((0, e) :: ms).length ≤ 1) := by
        simp only [List.length_cons] at h2 ⊢
        omega
      have hspec := sliceChunks_spec ms line 0 e
        (fun m hm => by
          have hmem : m ∈ findTsAux line.length line 0 := by rw [hms2]; exact hm
          obtain ⟨_, hb2, hb3⟩ := hbounds.1 m hmem
          exact ⟨hb2, by omega⟩)
        (by rw [← hms2]; exact hbounds.2)
      simp only [splitOneLine, hms]
      rw [if_neg hlen2, if_neg (by simp)]
      refine ⟨?_, ?_⟩
      · rw [hspec.1]
        simp
      · rw [hspec.2, List.drop_zero]
  · intro hneg
    cases hms : findTs line with
    | nil =>
      simp only [splitOneLine, hms]
      rw [if_pos (by simp)]
    | cons m ms =>
      obtain ⟨s, e⟩ := m
      by_cases hlen : ((s, e) :: ms).length ≤ 1
      · simp only [splitOneLine, hms]
        rw [if_pos hlen]
      · have hs : s ≠ 0 := by
          intro h0
          refine hneg ⟨?_, ?_⟩
          · rw [hms]
            simp only [List.length_cons] at hlen ⊢
            omega
          · rw [hms]
            simp [h0]
        simp only [splitOneLine, hms]
        rw [if_neg hlen, if_pos hs]

/-- A non-boundary character is simply accumulated by the line splitter. -/
theorem splitlinesAux_step (c : Char) (cs acc : List Char) (hc : isLineBoundary c = false) :
    splitlinesAux (c :: cs) acc = splitlinesAux cs (c :: acc) := by
  cases cs with
  | nil => rw [splitlinesAux.eq_3, if_neg (by simp [hc])]
  | cons d ds => rw [splitlinesAux.eq_2, if_neg (by simp [hc])]

/-- On boundary-free input the line splitter returns the accumulated line. -/
theorem splitlinesAux_no_boundary :
    ∀ (cs acc : List Char), (∀ c ∈ cs, isLineBoundary c = false) →
      splitlinesAux cs acc =
        if (acc.reverse ++ cs).isEmpty = true then [] else [acc.reverse ++ cs] := by
  intro cs
  induction cs with
  | nil =>
    intro acc _
    rw [splitlinesAux.eq_1]
    rcases hacc : acc with _ | ⟨a, as⟩
    · simp
    · simp
  | cons c cs ih =>
    intro acc hb
    rw [splitlinesAux_step c cs acc (hb c (List.mem_cons_self _ _)),
      ih (c :: acc) (fun x hx => hb x (List.mem_cons_of_mem _ hx))]
    simp

/-- Python `splitlines` of a nonempty boundary-free string is that single
line. -/
theorem pySplitlines_no_boundary (cs : List Char) (hne : cs ≠ [])
    (hb : ∀ c ∈ cs, isLineBoundary c = false) : pySplitlines cs = [cs] := by
  unfold pySplitlines
  rw [splitlinesAux_no_boundary cs [] hb]
  rcases hcs : cs with _ | _
  · exact absurd hcs hne
  · simp

/-- Two strings with the same character data are equal. -/
theorem string_eq_of_data (a b : String) (h : a.data = b.data) : a = b := by
  cases a
  cases b
  simp only at h
  rw [h]

/-- The character data of a joined list of strings. -/
theorem string_join_data : ∀ ss : List String,
    (String.join ss).data = (ss.map String.data).flatten := by
  have haux : ∀ (ss : List String) (acc : String),
      (List.foldl (fun r s => r ++ s) acc ss).data = acc.data ++ (ss.map String.data).flatten := by
    intro ss
    induction ss with
    | nil => intro acc; simp
    | cons s ss ih =>
      intro acc
      simp only [List.foldl_cons, List.map_cons, List.flatten_cons]
      rw [ih (acc ++ s), String.data_append, List.append_assoc]
  intro ss
  have := haux ss ""
  simp at this
  exact this

/-- On a boundary-free line, `split_embedded_timestamp_lines` is the
one-line split. -/
theorem split_embedded_one_line (line : String) (hne : line ≠ "")
    (hb : ∀ c ∈ line.data, isLineBoundary c = false) :
    split_embedded_timestamp_lines line = (splitOneLine line.data).map (fun l => String.mk l) := by
  have hdne : line.data ≠ [] := by
    intro habs
    apply hne
    refine string_eq_of_data _ _ ?_
    rw [habs]
  unfold split_embedded_timestamp_lines
  rw [pySplitlines_no_boundary line.data hdne hb]
  simp

/-- C4: a physical line is split into one logical sub-line per embedded
timestamp-prefix occurrence exactly when it holds more than one occurrence
and the first starts at offset 0, and is passed through unchanged
otherwise; in particular the spec's two examples split and do not split as
stated. -/
theorem C4_embedded_timestamp_split :
    split_embedded_timestamp_lines "[100ms] A[200ms] B" = ["[100ms] A", "[200ms] B"] ∧
    split_embedded_timestamp_lines "x[100ms] A[200ms] B" = ["x[100ms] A[200ms] B"] ∧
    ∀ line : String, line ≠ "" → (∀ c ∈ line.data, isLineBoundary c = false) →
      ((2 ≤ (findTs line.data).length ∧ (findTs line.data).head?.map Prod.fst = some 0) →
        (split_embedded_timestamp_lines line).length = (findTs line.data).length) ∧
      (¬ (2 ≤ (findTs line.data).length ∧ (findTs line.data).head?.map Prod.fst = some 0) →
        split_embedded_timestamp_lines line = [line]) := by
  refine ⟨by decide, by decide, ?_⟩
  intro line hne hb
  have hone := split_embedded_one_line line hne hb
  constructor
  · intro hcond
    rw [hone, List.length_map]
    exact ((splitOneLine_spec line.data).1 hcond).1
  · intro hcond
    rw [hone, (splitOneLine_spec line.data).2 hcond]
    simp only [List.map_cons, List.map_nil]

/-- Witness for C4 at the spec's splitting example, through the general
statement. -/
theorem C4_witness :
    (split_embedded_timestamp_lines "[100ms] A[200ms] B").length =
      (findTs "[100ms] A[200ms] B".data).length ∧
    split_embedded_timestamp_lines "no timestamps here" = ["no timestamps here"] :=
  ⟨(C4_embedded_timestamp_split.2.2 "[100ms] A[200ms] B" (by decide) (by decide)).1
     (by constructor <;> decide),
   (C4_embedded_timestamp_split.2.2 "no timestamps here" (by decide) (by decide)).2
     (by decide)⟩

/-- C10 (amended): for a nonempty line containing none of the line-boundary
characters the splitter recognizes (not only `'\n'` and `'\r'`, see the
counterexample), `split_embedded_timestamp_lines` loses no text: the
concatenation of the returned sub-lines is the input, and when no split is
performed the input is returned as the single element. -/
theorem C10_amended (line : String) (hne : line ≠ "")
    (hb : ∀ c ∈ line.data, isLineBoundary c = false) :
    String.join (split_embedded_timestamp_lines line) = line ∧
    (¬ (2 ≤ (findTs line.data).length ∧ (findTs line.data).head?.map Prod.fst = some 0) →
      split_embedded_timestamp_lines line = [line]) := by
  have hone := split_embedded_one_line line hne hb
  constructor
  · by_cases hcond : 2 ≤ (findTs line.data).length ∧
        (findTs line.data).head?.map Prod.fst = some 0
    · refine string_eq_of_data _ _ ?_
      rw [hone, string_join_data, List.map_map]
      have hdata : (List.map (String.data ∘ fun l => String.mk l) (splitOneLine line.data)) =
          splitOneLine line.data := by
        rw [show (String.data ∘ fun l : List Char => String.mk l) = id from rfl, List.map_id]
      rw [hdata, ((splitOneLine_spec line.data).1 hcond).2]
    · rw [hone, (splitOneLine_spec line.data).2 hcond]
      refine string_eq_of_data _ _ ?_
      rw [string_join_data]
      simp
  · intro hcond
    rw [hone, (splitOneLine_spec line.data).2 hcond]
    simp only [List.map_cons, List.map_nil]

/-- Witness for C10 on a concrete split line: the two sub-lines concatenate
back to the input, and an unsplittable line passes through. -/
theorem C10_witness :
    String.join (split_embedded_timestamp_lines "[100ms] A[200ms] B") = "[100ms] A[200ms] B" ∧
    split_embedded_timestamp_lines "plain text" = ["plain text"] :=
  ⟨(C10_amended "[100ms] A[200ms] B" (by decide) (by decide)).1,
   (C10_amended "plain text" (by decide) (by decide)).2 (by decide)⟩

/-- A list is its takeWhile prefix followed by the corresponding drop. -/
theorem takeWhile_append_drop (p : Char → Bool) :
    ∀ l : List Char, l.takeWhile p ++ l.drop (l.takeWhile p).length = l
| [] => rfl
| c :: cs => by
  rw [List.takeWhile_cons]
  cases hp : p c
  · simp
  · rw [if_pos rfl]
    simp only [List.length_cons, List.drop_succ_cons, List.cons_append]
    exact congrArg (c :: ·) (takeWhile_append_drop p cs)

/-- takeWhile over a block of satisfying characters followed by a failing
one returns exactly the block. -/
theorem takeWhile_all_append (p : Char → Bool) (x : Char) (rest : List Char)
    (hx : p x = false) :
    ∀ d : List Char, (∀ c ∈ d, p c = true) →
      (d ++ x :: rest).takeWhile p = d
| [], _ => by simp [List.takeWhile_cons, hx]
| c :: d, hd => by
  rw [List.cons_append, List.takeWhile_cons, hd c (List.mem_cons_self _ _), if_pos rfl]
  exact congrArg (c :: ·)
    (takeWhile_all_append p x rest hx d (fun c2 hc2 => hd c2 (List.mem_cons_of_mem _ hc2)))

/-- dropWhile is idempotent. -/
theorem dropWhile_idem (p : Char → Bool) (l : List Char) :
    (l.dropWhile p).dropWhile p = l.dropWhile p := by
  induction l with
  | nil => rfl
  | cons c cs ih =>
    rw [List.dropWhile_cons]
    cases hp : p c
    · simp [List.dropWhile_cons, hp]
    · simpa using ih

/-- Carriage-return stripping never adds characters. -/
theorem stripLeadingCRs_sublist (l : List Char) : List.Sublist (stripLeadingCRs l) l := by
  unfold stripLeadingCRs
  split
  · exact List.dropWhile_sublist _
  · exact List.Sublist.refl l

/-- On newline-free text the trailing `\s*(.*)$` always matches and captures
the text after the maximal whitespace run. -/
theorem restGroup_no_newline (t : List Char) (h : '\n' ∉ t) :
    restGroup t = some (t.dropWhile isPySpace) := by
  unfold restGroup
  rw [if_neg ?_]
  intro hany
  obtain ⟨c, hc, hceq⟩ := List.any_eq_true.mp hany
  have hcn : c = '\n' := of_decide_eq_true hceq
  subst hcn
  exact h ((List.dropWhile_sublist _).subset hc)

/-- Inversion of a successful `LOG_PREFIX_RE` match: the line decomposes as
the bracketed digit run, the literal `ms]`, and a remainder whose
`\s*(.*)$` group is the captured group 2. -/
theorem logLineMatch_some_inv (l : List Char) (t : Nat) (g2 : List Char)
    (h : logLineMatch l = some (t, g2)) :
    ∃ d rest, d ≠ [] ∧ (∀ c ∈ d, c.isDigit = true) ∧
      l = '[' :: (d ++ 'm' :: 's' :: ']' :: rest) ∧ t = digitsToNat d ∧
      restGroup rest = some g2 := by
  cases l with
  | nil => exact Option.noConfusion h
  | cons c rest0 =>
    simp only [logLineMatch] at h
    by_cases hc : c = '['
    · rw [if_pos hc] at h
      subst hc
      by_cases hd : (rest0.takeWhile Char.isDigit).isEmpty = true
      · rw [if_pos hd] at h
        exact Option.noConfusion h
      · rw [if_neg hd] at h
        rcases hdrop : rest0.drop (rest0.takeWhile Char.isDigit).length with _ | ⟨a, _ | ⟨b, _ | ⟨e2, tail⟩⟩⟩
        · simp only [hdrop] at h
          exact Option.noConfusion h
        · simp only [hdrop] at h
          exact Option.noConfusion h
        · simp only [hdrop] at h
          exact Option.noConfusion h
        · simp only [hdrop] at h
          by_cases habc : a = 'm' ∧ b = 's' ∧ e2 = ']'
          · rw [if_pos habc] at h
            obtain ⟨rfl, rfl, rfl⟩ := habc
            cases hrg : restGroup tail with
            | none =>
              simp only [hrg] at h
              exact Option.noConfusion h
            | some g =>
              simp only [hrg] at h
              injection h with h2
              have ht : digitsToNat (rest0.takeWhile Char.isDigit) = t :=
                congrArg Prod.fst h2
              have hg : g = g2 := congrArg Prod.snd h2
              refine ⟨rest0.takeWhile Char.isDigit, tail, ?_, ?_, ?_, ht.symm, hg ▸ hrg⟩
              · intro habs
                rw [habs] at hd
                exact hd rfl
              · exact fun c2 hc2 => List.mem_takeWhile_imp hc2
              · rw [List.cons.injEq]
                refine ⟨rfl, ?_⟩
                conv_lhs => rw [← takeWhile_append_drop Char.isDigit rest0]
                rw [hdrop]
          · rw [if_neg habc] at h
            exact Option.noConfusion h
    · rw [if_neg hc] at h
      exact Option.noConfusion h

/-- `LOG_PREFIX_RE` on a decomposed newline-free line: the match succeeds
and captures the digit value and the remainder after the whitespace run. -/
theorem logLineMatch_decomp (d rest : List Char) (hne : d ≠ [])
    (hdig : ∀ c ∈ d, c.isDigit = true) (hrest : '\n' ∉ rest) :
    logLineMatch ('[' :: (d ++ 'm' :: 's' :: ']' :: rest)) =
      some (digitsToNat d, rest.dropWhile isPySpace) := by
  have htw : (d ++ 'm' :: 's' :: ']' :: rest).takeWhile Char.isDigit = d :=
    takeWhile_all_append Char.isDigit 'm' ('s' :: ']' :: rest) (by decide) d hdig
  have hem : d.isEmpty = false := by
    rcases d with _ | _
    · exact absurd rfl hne
    · rfl
  simp only [logLineMatch, if_pos rfl, htw, hem, Bool.false_eq_true, if_false,
    List.drop_left]
  simp [restGroup_no_newline rest hrest]

/-- Inversion of a successful `MODULE_RE` match. -/
theorem moduleMatch_some_inv (r : List Char) (m msg : List Char)
    (h : moduleMatch r = some (m, msg)) :
    ∃ tail, m ≠ [] ∧ (∀ c ∈ m, ¬ c = ']') ∧
      r.dropWhile isPySpace = '[' :: (m ++ ']' :: tail) ∧
      restGroup tail = some msg := by
  cases hr : r.dropWhile isPySpace with
  | nil =>
    unfold moduleMatch at h
    simp only [hr] at h
    exact Option.noConfusion h
  | cons c rest =>
    unfold moduleMatch at h
    simp only [hr] at h
    by_cases hc : c = '['
    · rw [if_pos hc] at h
      subst hc
      by_cases hm : (rest.takeWhile (fun c2 => c2 != ']')).isEmpty = true
      · rw [if_pos hm] at h
        exact Option.noConfusion h
      · rw [if_neg hm] at h
        rcases hdrop : rest.drop (rest.takeWhile (fun c2 => c2 != ']')).length with _ | ⟨e2, tail⟩
        · simp only [hdrop] at h
          exact Option.noConfusion h
        · simp only [hdrop] at h
          by_cases he : e2 = ']'
          · rw [if_pos he] at h
            subst he
            cases hrg : restGroup tail with
            | none =>
              simp only [hrg] at h
              exact Option.noConfusion h
            | some g =>
              simp only [hrg] at h
              injection h with h2
              have hm1 : rest.takeWhile (fun c2 => c2 != ']') = m := congrArg Prod.fst h2
              have hg : g = msg := congrArg Prod.snd h2
              refine ⟨tail, ?_, ?_, ?_, hg ▸ hrg⟩
              · intro habs
                rw [hm1, habs] at hm
                exact hm rfl
              · intro c2 hc2
                rw [← hm1] at hc2
                have := List.mem_takeWhile_imp hc2
                exact bne_iff_ne.mp this
              · rw [List.cons.injEq]
                refine ⟨rfl, ?_⟩
                conv_lhs => rw [← takeWhile_append_drop (fun c2 => c2 != ']') rest]
                rw [hdrop, hm1]
          · rw [if_neg he] at h
            exact Option.noConfusion h
    · rw [if_neg hc] at h
      exact Option.noConfusion h

/-- `MODULE_RE` on a decomposed newline-free remainder. -/
theorem moduleMatch_decomp (r m tail : List Char) (hne : m ≠ [])
    (hnb : ∀ c ∈ m, ¬ c = ']') (hdec : r.dropWhile isPySpace = '[' :: (m ++ ']' :: tail))
    (ht : '\n' ∉ tail) :
    moduleMatch r = some (m, tail.dropWhile isPySpace) := by
  have htw : (m ++ ']' :: tail).takeWhile (fun c2 => c2 != ']') = m :=
    takeWhile_all_append (fun c2 => c2 != ']') ']' tail (by decide) m
      (fun c hc => bne_iff_ne.mpr (hnb c hc))
  have hem : m.isEmpty = false := by
    rcases m with _ | _
    · exact absurd rfl hne
    · rfl
  unfold moduleMatch
  rw [hdec]
  simp only [if_pos rfl, htw, hem, Bool.false_eq_true, if_false, List.drop_left]
  simp [restGroup_no_newline tail ht]

/-- C3 (amended): after stripping all leading carriage returns (the code
strips every leading CR, not a single one — see the counterexample), a line
without embedded newline characters decodes to an event exactly when the
stripped line starts with the timestamp prefix `[<digits>ms]`; on success
the event carries the exact digit value, and when a bracketed module tag
follows the prefix (after the whitespace the prefix regex consumes) the
module and message split at the bracket boundary, the module being empty
and the message the whole remainder otherwise. -/
theorem C3_amended (line : String) (hn : '\n' ∉ line.data) :
    ((parse_log_line line).isSome ↔
      ∃ d rest, d ≠ [] ∧ (∀ c ∈ d, c.isDigit = true) ∧
        stripLeadingCRs line.data = '[' :: (d ++ 'm' :: 's' :: ']' :: rest)) ∧
    (∀ ev, parse_log_line line = some ev →
      ∀ d rest, d ≠ [] → (∀ c ∈ d, c.isDigit = true) →
        stripLeadingCRs line.data = '[' :: (d ++ 'm' :: 's' :: ']' :: rest) →
        ev.t_ms = digitsToNat d ∧
        ((∀ m tail, m ≠ [] → (∀ c ∈ m, ¬ c = ']') →
            rest.dropWhile isPySpace = '[' :: (m ++ ']' :: tail) →
            ev.module = String.mk m ∧ ev.message = String.mk (tail.dropWhile isPySpace)) ∧
         ((¬ ∃ m tail, m ≠ [] ∧ (∀ c ∈ m, ¬ c = ']') ∧
              rest.dropWhile isPySpace = '[' :: (m ++ ']' :: tail)) →
           ev.module = "" ∧ ev.message = String.mk (rest.dropWhile isPySpace)))) := by
  have hnl : '\n' ∉ stripLeadingCRs line.data :=
    fun h => hn ((stripLeadingCRs_sublist _).subset h)
  constructor
  · constructor
    · intro hsome
      obtain ⟨ev, hev⟩ := Option.isSome_iff_exists.mp hsome
      simp only [parse_log_line] at hev
      cases hlm : logLineMatch (stripLeadingCRs line.data) with
      | none =>
        simp only [hlm] at hev
        exact Option.noConfusion hev
      | some p =>
        obtain ⟨t, g2⟩ := p
        obtain ⟨d, rest, h1, h2, h3, _, _⟩ := logLineMatch_some_inv _ _ _ hlm
        exact ⟨d, rest, h1, h2, h3⟩
    · rintro ⟨d, rest, h1, h2, h3⟩
      have hrest : '\n' ∉ rest := fun hmem => hnl (by rw [h3]; simp [hmem])
      simp only [parse_log_line]
      rw [h3, logLineMatch_decomp d rest h1 h2 hrest]
      cases hmm : moduleMatch (rest.dropWhile isPySpace) with
      | none => simp [hmm]
      | some p =>
        obtain ⟨m, msg⟩ := p
        simp [hmm]
  · intro ev hev d rest hdne hdig hdec
    have hrest : '\n' ∉ rest := fun hmem => hnl (by rw [hdec]; simp [hmem])
    simp only [parse_log_line] at hev
    rw [hdec, logLineMatch_decomp d rest hdne hdig hrest] at hev
    cases hmm : moduleMatch (rest.dropWhile isPySpace) with
    | some p =>
      obtain ⟨m0, msg0⟩ := p
      simp only [hmm] at hev
      injection hev with hev
      subst hev
      obtain ⟨tail0, hm0ne, hm0nb, hm0dec, hm0rg⟩ := moduleMatch_some_inv _ _ _ hmm
      rw [dropWhile_idem] at hm0dec
      have ht0 : '\n' ∉ tail0 := fun hmem =>
        hrest ((List.dropWhile_sublist _).subset (by rw [hm0dec]; simp [hmem]))
      rw [restGroup_no_newline tail0 ht0] at hm0rg
      injection hm0rg with hm0rg
      refine ⟨rfl, ?_, ?_⟩
      · intro m tail hmne hmnb hmdec
        rw [hm0dec] at hmdec
        have hbody : m0 ++ ']' :: tail0 = m ++ ']' :: tail := by
          injection hmdec with _ hmdec
        have t1 := takeWhile_all_append (fun c2 => c2 != ']') ']' tail (by decide) m
          (fun c hc => bne_iff_ne.mpr (hmnb c hc))
        have t2 := takeWhile_all_append (fun c2 => c2 != ']') ']' tail0 (by decide) m0
          (fun c hc => bne_iff_ne.mpr (hm0nb c hc))
        rw [hbody, t1] at t2
        subst t2
        have htl : tail0 = tail := by
          have := List.append_cancel_left hbody
          injection this
        subst htl
        exact ⟨rfl, by rw [hm0rg]⟩
      · intro hnex
        exact absurd ⟨m0, tail0, hm0ne, hm0nb, hm0dec⟩ hnex
    | none =>
      simp only [hmm] at hev
      injection hev with hev
      subst hev
      refine ⟨rfl, ?_, fun _ => ⟨rfl, rfl⟩⟩
      intro m tail hmne hmnb hmdec
      have ht : '\n' ∉ tail := fun hmem =>
        hrest ((List.dropWhile_sublist _).subset (by rw [hmdec]; simp [hmem]))
      have hsome := moduleMatch_decomp (rest.dropWhile isPySpace) m tail hmne hmnb
        (by rw [dropWhile_idem]; exact hmdec) ht
      rw [hmm] at hsome
      exact Option.noConfusion hsome

/-- Witness for C3: a concrete module-tagged line decodes to the exact
timestamp, module and message, and satisfies the prefix characterization. -/
theorem C3_witness :
    ((parse_log_line "[1075ms] [System Boot] Starting").isSome ↔
      ∃ d rest, d ≠ [] ∧ (∀ c ∈ d, c.isDigit = true) ∧
        stripLeadingCRs "[1075ms] [System Boot] Starting".data =
          '[' :: (d ++ 'm' :: 's' :: ']' :: rest)) ∧
    parse_log_line "[1075ms] [System Boot] Starting" =
      some ⟨1075, "System Boot", "Starting", "[1075ms] [System Boot] Starting"⟩ :=
  ⟨(C3_amended "[1075ms] [System Boot] Starting" (by decide)).1, by decide⟩

/-- Unfolding equation of the quoted-field parser on a cons cell. -/
theorem csvParseQuoted_cons_eq (c : Char) (rest : List Char) :
    csvParseQuoted (c :: rest) =
      if c = '"' then
        match rest with
        | d :: rest2 =>
          if d = '"' then
            let p := csvParseQuoted rest2
            ('"' :: p.1, p.2)
          else ([], rest)
        | [] => ([], [])
      else
        let p := csvParseQuoted rest
        (c :: p.1, p.2) := by
  cases rest <;> rfl

/-- An unquoted csv field followed by a delimiter or line terminator parses
back to itself. -/
theorem csvParseUnquoted_spec (d : Char) (rest : List Char)
    (hd : d = ',' ∨ d = '\r' ∨ d = '\n') :
    ∀ f : List Char, (∀ c ∈ f, csvSpecial c = false) →
      csvParseUnquoted (f ++ d :: rest) = (f, d :: rest)
| [], _ => by
  rw [List.nil_append]
  show (if (d = ',' || d = '\r' || d = '\n') = true then (([] : List Char), d :: rest)
        else ((d :: (csvParseUnquoted rest).1, (csvParseUnquoted rest).2))) = ([], d :: rest)
  rw [if_pos ?_]
  rcases hd with rfl | rfl | rfl
  · simp
  · simp
  · simp
| c :: f, hf => by
  have hcs : csvSpecial c = false := hf c (List.mem_cons_self _ _)
  have hc1 : c ≠ ',' := by intro h; subst h; simp [csvSpecial] at hcs
  have hc2 : c ≠ '\r' := by intro h; subst h; simp [csvSpecial] at hcs
  have hc3 : c ≠ '\n' := by intro h; subst h; simp [csvSpecial] at hcs
  have hcn : ¬ (c = ',' || c = '\r' || c = '\n') = true := by
    simp [hc1, hc2, hc3]
  rw [List.cons_append]
  show (if (c = ',' || c = '\r' || c = '\n') = true then (([] : List Char), c :: (f ++ d :: rest))
        else ((c :: (csvParseUnquoted (f ++ d :: rest)).1, (csvParseUnquoted (f ++ d :: rest)).2))) =
       (c :: f, d :: rest)
  rw [if_neg hcn,
    csvParseUnquoted_spec d rest hd f (fun c2 hc2 => hf c2 (List.mem_cons_of_mem _ hc2))]

/-- A quoted csv field body followed by the closing quote parses back to the
unescaped field, provided the closing quote is not followed by another
quote (true of all rendered output, where a delimiter or terminator
follows). -/
theorem csvParseQuoted_spec (rest : List Char) (hrest : rest.head? ≠ some '"') :
    ∀ f : List Char, csvParseQuoted (csvEscape f ++ '"' :: rest) = (f, rest)
| [] => by
  rw [show csvEscape [] = [] from rfl, List.nil_append, csvParseQuoted_cons_eq, if_pos rfl]
  cases hr : rest with
  | nil => rfl
  | cons d rest2 =>
    have hd : ¬ d = '"' := by
      rw [hr] at hrest
      intro habs
      exact hrest (by rw [habs]; rfl)
    simp only [if_neg hd]
| c :: f => by
  by_cases hc : c = '"'
  · subst hc
    rw [show csvEscape ('"' :: f) = '"' :: '"' :: csvEscape f by simp [csvEscape],
      List.cons_append, List.cons_append, csvParseQuoted_cons_eq, if_pos rfl]
    dsimp only
    rw [if_pos rfl, csvParseQuoted_spec rest hrest f]
  · rw [show csvEscape (c :: f) = c :: csvEscape f by simp [csvEscape, hc],
      List.cons_append, csvParseQuoted_cons_eq, if_neg hc]
    simp only
    rw [csvParseQuoted_spec rest hrest f]

/-- An encoded csv field followed by a delimiter or line terminator parses
back to the field, leaving the delimiter in place. -/
theorem csvField_parse (f : List Char) (d : Char) (rest : List Char)
    (hd : d = ',' ∨ d = '\r' ∨ d = '\n') :
    csvFieldStart (csvEncodeField f ++ d :: rest) = (f, d :: rest) := by
  by_cases hq : f.any csvSpecial = true
  · rw [show csvEncodeField f = '"' :: (csvEscape f ++ ['"']) by
      simp [csvEncodeField, hq], List.cons_append]
    show (if ('"' : Char) = '"' then csvParseQuoted ((csvEscape f ++ ['"']) ++ d :: rest)
          else csvParseUnquoted ('"' :: ((csvEscape f ++ ['"']) ++ d :: rest))) = (f, d :: rest)
    rw [if_pos rfl, show (csvEscape f ++ ['"']) ++ d :: rest = csvEscape f ++ '"' :: d :: rest by
      simp]
    refine csvParseQuoted_spec (d :: rest) ?_ f
    simp only [List.head?_cons, ne_eq, Option.some.injEq]
    rcases hd with rfl | rfl | rfl <;> decide
  · have hnos : ∀ c ∈ f, csvSpecial c = false := by
      intro c hc
      by_contra habs
      exact hq (List.any_eq_true.mpr ⟨c, hc, by simpa using habs⟩)
    rw [show csvEncodeField f = f by simp [csvEncodeField, hq]]
    rcases f with _ | ⟨c, f1⟩
    · rw [List.nil_append]
      show (if d = '"' then csvParseQuoted rest else csvParseUnquoted (d :: rest)) = ([], d :: rest)
      rw [if_neg (by rcases hd with rfl | rfl | rfl <;> decide)]
      exact csvParseUnquoted_spec d rest hd [] (fun c hc => absurd hc (List.not_mem_nil c))
    · have hcq : ¬ c = '"' := by
        intro habs
        have h2 := hnos c (List.mem_cons_self c f1)
        rw [habs] at h2
        simp [csvSpecial] at h2
      rw [List.cons_append]
      show (if c = '"' then csvParseQuoted (f1 ++ d :: rest)
            else csvParseUnquoted (c :: (f1 ++ d :: rest))) = (c :: f1, d :: rest)
      rw [if_neg hcq, show c :: (f1 ++ d :: rest) = (c :: f1) ++ d :: rest from rfl]
      exact csvParseUnquoted_spec d rest hd (c :: f1) hnos

/-- Unfolding equation of the record parser at positive fuel. -/
theorem csvParseRecord_succ (fuel : Nat) (cs : List Char) :
    csvParseRecord (fuel + 1) cs =
      (let p := csvFieldStart cs
       match p.2 with
       | [] => ([p.1], [])
       | c :: r =>
         if c = ',' then
           let q := csvParseRecord fuel r
           (p.1 :: q.1, q.2)
         else if c = '\r' then
           match r with
           | d :: r2 => if d = '\n' then ([p.1], r2) else ([p.1], d :: r2)
           | [] => ([p.1], [])
         else ([p.1], r)) := rfl

/-- The comma-separated body of a nonempty record, terminated by `\r\n`,
parses back to the record's fields with the terminator consumed. -/
theorem csvRowBody_parse :
    ∀ (r : List (List Char)) (rest : List Char) (fuel : Nat),
      r ≠ [] → r.length ≤ fuel →
      csvParseRecord fuel (csvRowBody r ++ '\r' :: '\n' :: rest) = (r, rest)
| [], _, _, hne, _ => absurd rfl hne
| [f], rest, fuel, _, hfuel => by
  simp only [List.length_cons, List.length_nil] at hfuel
  obtain ⟨k, rfl⟩ : ∃ k, fuel = k + 1 := ⟨fuel - 1, by omega⟩
  rw [show csvRowBody [f] = csvEncodeField f from rfl, csvParseRecord_succ]
  dsimp only
  rw [csvField_parse f '\r' ('\n' :: rest) (Or.inr (Or.inl rfl))]
  dsimp only
  rw [if_neg (by decide), if_pos rfl]
  rw [if_pos rfl]
| f :: f2 :: fs, rest, fuel, _, hfuel => by
  simp only [List.length_cons] at hfuel
  obtain ⟨k, rfl⟩ : ∃ k, fuel = k + 1 := ⟨fuel - 1, by omega⟩
  rw [show csvRowBody (f :: f2 :: fs) = csvEncodeField f ++ ',' :: csvRowBody (f2 :: fs) from rfl,
    show (csvEncodeField f ++ ',' :: csvRowBody (f2 :: fs)) ++ '\r' :: '\n' :: rest
        = csvEncodeField f ++ ',' :: (csvRowBody (f2 :: fs) ++ '\r' :: '\n' :: rest) by simp,
    csvParseRecord_succ]
  dsimp only
  rw [csvField_parse f ',' (csvRowBody (f2 :: fs) ++ '\r' :: '\n' :: rest) (Or.inl rfl)]
  dsimp only
  rw [if_pos rfl,
    csvRowBody_parse (f2 :: fs) rest k (List.cons_ne_nil f2 fs)
      (by simp only [List.length_cons]; omega)]

/-- A serialized nonempty record, terminated by `\r\n`, parses back to its
fields, including the quoted single-empty-field special case. -/
theorem csvRowLine_parse (r : List (List Char)) (rest : List Char) (fuel : Nat)
    (hne : r ≠ []) (hfuel : r.length ≤ fuel) :
    csvParseRecord fuel (csvRowLine r ++ '\r' :: '\n' :: rest) = (r, rest) := by
  rcases r with _ | ⟨f, fs⟩
  · exact absurd rfl hne
  rcases fs with _ | ⟨f2, fs⟩
  · rcases f with _ | ⟨c, f1⟩
    · obtain ⟨k, rfl⟩ : ∃ k, fuel = k + 1 :=
        ⟨fuel - 1, by simp only [List.length_cons, List.length_nil] at hfuel; omega⟩
      rw [show csvRowLine [[]] = ['"', '"'] from rfl, csvParseRecord_succ]
      dsimp only
      rw [show csvFieldStart (['"', '"'] ++ '\r' :: '\n' :: rest) = ([], '\r' :: '\n' :: rest) by
        show (if ('"' : Char) = '"' then csvParseQuoted ('"' :: '\r' :: '\n' :: rest)
              else csvParseUnquoted ('"' :: '"' :: '\r' :: '\n' :: rest))
            = ([], '\r' :: '\n' :: rest)
        rw [if_pos rfl, csvParseQuoted_cons_eq, if_pos rfl]
        dsimp only
        rw [if_neg (by decide)]]
      dsimp only
      rw [if_neg (by decide), if_pos rfl]
      rw [if_pos rfl]
    · exact csvRowBody_parse [c :: f1] rest fuel (List.cons_ne_nil _ _) hfuel
  · rw [show csvRowLine (f :: f2 :: fs) = csvRowBody (f :: f2 :: fs) by cases f <;> rfl]
    exact csvRowBody_parse (f :: f2 :: fs) rest fuel (List.cons_ne_nil _ _) hfuel

/-- The body of a nonempty record is at most one character shorter than the
record has fields. -/
theorem csvRowBody_length_ge :
    ∀ (f : List Char) (fs : List (List Char)),
      (f :: fs).length ≤ (csvRowBody (f :: fs)).length + 1
| _, [] => by simp
| f, f2 :: fs => by
  have ih := csvRowBody_length_ge f2 fs
  rw [show csvRowBody (f :: f2 :: fs) = csvEncodeField f ++ ',' :: csvRowBody (f2 :: fs) from rfl]
  simp only [List.length_cons, List.length_append] at ih ⊢
  omega

/-- A serialized record is at most one character shorter than the record has
fields. -/
theorem csvRowLine_length_ge (r : List (List Char)) (hne : r ≠ []) :
    r.length ≤ (csvRowLine r).length + 1 := by
  rcases r with _ | ⟨f, fs⟩
  · exact absurd rfl hne
  rcases fs with _ | ⟨f2, fs⟩
  · rcases f with _ | ⟨c, f1⟩
    · simp [csvRowLine]
    · exact csvRowBody_length_ge (c :: f1) []
  · rw [show csvRowLine (f :: f2 :: fs) = csvRowBody (f :: f2 :: fs) by cases f <;> rfl]
    exact csvRowBody_length_ge f (f2 :: fs)

/-- A serialized nonempty record starts with a character that is neither a
carriage return nor a newline. -/
theorem csvRowLine_head (r : List (List Char)) (hne : r ≠ []) :
    ∃ c t, csvRowLine r = c :: t ∧ ¬ c = '\r' ∧ ¬ c = '\n' := by
  have hfield : ∀ (c : Char) (f1 t0 : List Char),
      ∃ c2 t, csvEncodeField (c :: f1) ++ t0 = c2 :: t ∧ ¬ c2 = '\r' ∧ ¬ c2 = '\n' := by
    intro c f1 t0
    by_cases hq : (c :: f1).any csvSpecial = true
    · refine ⟨'"', (csvEscape (c :: f1) ++ ['"']) ++ t0, ?_, by decide, by decide⟩
      rw [show csvEncodeField (c :: f1) = '"' :: (csvEscape (c :: f1) ++ ['"']) by
        simp [csvEncodeField, hq], List.cons_append]
    · have hcs : csvSpecial c = false := by
        by_contra habs
        exact hq (List.any_eq_true.mpr ⟨c, List.mem_cons_self _ _, by simpa using habs⟩)
      refine ⟨c, f1 ++ t0, ?_, ?_, ?_⟩
      · rw [show csvEncodeField (c :: f1) = c :: f1 by simp [csvEncodeField, hq],
          List.cons_append]
      · intro habs; subst habs; simp [csvSpecial] at hcs
      · intro habs; subst habs; simp [csvSpecial] at hcs
  rcases r with _ | ⟨f, fs⟩
  · exact absurd rfl hne
  rcases fs with _ | ⟨f2, fs⟩
  · rcases f with _ | ⟨c, f1⟩
    · exact ⟨'"', ['"'], rfl, by decide, by decide⟩
    · have h := hfield c f1 []
      simpa using h
  · rw [show csvRowLine (f :: f2 :: fs) = csvRowBody (f :: f2 :: fs) by cases f <;> rfl,
      show csvRowBody (f :: f2 :: fs) = csvEncodeField f ++ ',' :: csvRowBody (f2 :: fs) from rfl]
    rcases f with _ | ⟨c, f1⟩
    · exact ⟨',', csvRowBody (f2 :: fs), rfl, by decide, by decide⟩
    · exact hfield c f1 (',' :: csvRowBody (f2 :: fs))

/-- Rendering never shrinks the number of rows below the character count. -/
theorem csvRenderRows_length_ge :
    ∀ rows : List (List (List Char)), rows.length ≤ (csvRenderRows rows).length
| [] => Nat.le_refl 0
| r :: rows => by
  have ih := csvRenderRows_length_ge rows
  rw [show csvRenderRows (r :: rows) = csvRowLine r ++ '\r' :: '\n' :: csvRenderRows rows
      from rfl]
  simp only [List.length_cons, List.length_append]
  omega

/-- Unfolding equation of the row parser at positive fuel on a cons cell. -/
theorem csvParseRows_succ_cons (fuel : Nat) (c : Char) (rest : List Char) :
    csvParseRows (fuel + 1) (c :: rest) =
      if c = '\r' ∧ rest.head? = some '\n' then [] :: csvParseRows fuel rest.tail
      else if c = '\n' then [] :: csvParseRows fuel rest
      else
        (csvParseRecord ((c :: rest).length + 1) (c :: rest)).1 ::
          csvParseRows fuel (csvParseRecord ((c :: rest).length + 1) (c :: rest)).2 := rfl

/-- Parsing inverts rendering at the level of whole tables, given at least
as much fuel as there are rows. -/
theorem csvParseRows_render :
    ∀ (rows : List (List (List Char))) (fuel : Nat),
      rows.length ≤ fuel →
      csvParseRows fuel (csvRenderRows rows) = rows
| [], fuel, _ => by cases fuel <;> rfl
| r :: rows, fuel, hfuel => by
  simp only [List.length_cons] at hfuel
  obtain ⟨k, rfl⟩ : ∃ k, fuel = k + 1 := ⟨fuel - 1, by omega⟩
  rw [show csvRenderRows (r :: rows) = csvRowLine r ++ '\r' :: '\n' :: csvRenderRows rows
      from rfl]
  rcases hr : r with _ | ⟨f, fs⟩
  · rw [show csvRowLine [] ++ '\r' :: '\n' :: csvRenderRows rows
        = '\r' :: '\n' :: csvRenderRows rows from rfl,
      csvParseRows_succ_cons, if_pos ⟨rfl, rfl⟩]
    rw [show ('\n' :: csvRenderRows rows).tail = csvRenderRows rows from rfl,
      csvParseRows_render rows k (by omega)]
  · obtain ⟨c, t, hct, hc1, hc2⟩ := csvRowLine_head (f :: fs) (List.cons_ne_nil f fs)
    rw [hct, List.cons_append, csvParseRows_succ_cons,
      if_neg (fun h => hc1 h.1), if_neg hc2]
    rw [show (c : Char) :: (t ++ '\r' :: '\n' :: csvRenderRows rows)
        = csvRowLine (f :: fs) ++ '\r' :: '\n' :: csvRenderRows rows by
      rw [hct]; rfl]
    have hlen : (f :: fs).length ≤
        (csvRowLine (f :: fs) ++ '\r' :: '\n' :: csvRenderRows rows).length + 1 := by
      have h1 := csvRowLine_length_ge (f :: fs) (List.cons_ne_nil f fs)
      simp only [List.length_append, List.length_cons] at h1 ⊢
      omega
    rw [csvRowLine_parse (f :: fs) (csvRenderRows rows) _ (List.cons_ne_nil f fs) hlen]
    rw [csvParseRows_render rows k (by omega)]

/-- Writing any table with the csv writer and re-reading it yields the same
table. -/
theorem csv_roundtrip (rows : List (List String)) :
    csvParse (csvRender rows) = rows := by
  show (csvParseRows ((csvRender rows).data.length + 1) (csvRender rows).data).map
      (fun r => r.map (fun f => String.mk f)) = rows
  rw [show (csvRender rows).data = csvRenderRows (rows.map (fun r => r.map String.data))
      from rfl]
  have hb : (rows.map (fun r => r.map String.data)).length ≤
      (csvRenderRows (rows.map (fun r => r.map String.data))).length + 1 := by
    have h := csvRenderRows_length_ge (rows.map (fun r => r.map String.data))
    omega
  rw [csvParseRows_render _ _ hb, List.map_map]
  have hcomp : ((fun r : List (List Char) => r.map (fun f => String.mk f)) ∘
      (fun r : List String => r.map String.data)) = id := by
    funext r
    show (r.map String.data).map (fun f => String.mk f) = r
    rw [List.map_map, show ((fun f => String.mk f) ∘ String.data) = id from rfl, List.map_id]
  rw [hcomp, List.map_id]

/-- C9: `write_overlay_csv` writes exactly one data row per joined row after
the header; a row whose sample is absent has blank (empty-string) fields for
the sample uptime and the four metric values rather than "0"; and writing
then re-reading the table preserves the row count and every column value
exactly. -/
theorem C9_overlay_roundtrip (joined : List (LogEvent × Option HealthSample))
    (i : Nat) (hi : i < joined.length)
    (hnone : (joined.get ⟨i, hi⟩).2 = none) :
    (write_overlay_csv joined).length = joined.length + 1 ∧
    (write_overlay_csv joined).get
        ⟨i + 1, by simp only [write_overlay_csv, List.length_cons, List.length_map]; omega⟩ =
      [toString (joined.get ⟨i, hi⟩).1.t_ms, "", "", "", "", "",
       (joined.get ⟨i, hi⟩).1.module, (joined.get ⟨i, hi⟩).1.message] ∧
    csvParse (csvRender (write_overlay_csv joined)) = write_overlay_csv joined := by
  refine ⟨?_, ?_, csv_roundtrip (write_overlay_csv joined)⟩
  · simp [write_overlay_csv]
  · simp only [write_overlay_csv, List.get_eq_getElem, List.getElem_cons_succ,
      List.getElem_map]
    have h2 : overlayRow (joined.get ⟨i, hi⟩) =
        [toString (joined.get ⟨i, hi⟩).1.t_ms, "", "", "", "", "",
         (joined.get ⟨i, hi⟩).1.module, (joined.get ⟨i, hi⟩).1.message] := by
      simp only [overlayRow, hnone]
    exact h2

/-- Witness for C9 at a one-row joined table whose single row has no
sample. -/
theorem C9_witness :
    0 < ([((⟨5, "sys", "go", "[5ms] [sys] go"⟩ : LogEvent), (none : Option HealthSample))] :
          List (LogEvent × Option HealthSample)).length ∧
    ([((⟨5, "sys", "go", "[5ms] [sys] go"⟩ : LogEvent), (none : Option HealthSample))].get
        ⟨0, by decide⟩).2 = none ∧
    (write_overlay_csv
        [((⟨5, "sys", "go", "[5ms] [sys] go"⟩ : LogEvent),
          (none : Option HealthSample))]).length = 2 :=
  ⟨by decide, rfl,
    (C9_overlay_roundtrip
      [((⟨5, "sys", "go", "[5ms] [sys] go"⟩ : LogEvent), (none : Option HealthSample))]
      0 (by decide) rfl).1⟩
